/-
Verification of the trace-event classifier, task aggregator and multi-run
report merger of analyze-trace.js, as a shallow embedding in Lean 4.

Conventions of the embedding:
* JS numbers are modelled as exact rationals (ℚ); durations from the trace
  are microsecond counts divided by 1000 exactly as in the source.
* JS strings are Lean Strings; string algorithms (split, trim, toLowerCase,
  includes, toFixed) are re-implemented structurally on the underlying
  character lists so that every definition reduces in the kernel.
* `undefined`/missing JS fields are Option; JS truthiness tests on strings
  and numbers are modelled explicitly (empty string and 0 are falsy).
* The in-place mutation of the report array in updateReport is modelled by
  explicit state passing: a MergeState carrying the report, the
  key-to-row-index map and the set of keys updated in this pass.
-/
import Mathlib

namespace AnalyzeTrace

/-! ### Character-list utilities (JS string primitives) -/

/-- Does the second list start with the first?  Helper for `subMatch`. -/
def leadMatch : List Char → List Char → Bool
  | [], _ => true
  | _ :: _, [] => false
  | p :: ps, h :: hs => p == h && leadMatch ps hs

/-- JS `String.prototype.includes`: does `hay` contain `pat` as a
contiguous run? -/
def subMatch (pat : List Char) : List Char → Bool
  | [] => leadMatch pat []
  | h :: hs => leadMatch pat (h :: hs) || subMatch pat hs

/-- JS `str.split(sep)` for a single-character separator; `"".split(sep)`
is `[""]`, matching JS. -/
def splitOnChar (sep : Char) : List Char → List (List Char)
  | [] => [[]]
  | c :: cs =>
    let r := splitOnChar sep cs
    if c == sep then [] :: r
    else (c :: r.headI) :: r.tail

/-- Whitespace for JS `trim` (ASCII space, tab, LF, CR). -/
def isWsChar (c : Char) : Bool :=
  c == ' ' || c == '\t' || c == '\n' || c == '\r'

/-- JS `str.trim()`: strip whitespace from both ends. -/
def trimChars (l : List Char) : List Char :=
  ((l.dropWhile isWsChar).reverse.dropWhile isWsChar).reverse

/-- JS `str.toLowerCase()` restricted to ASCII, which is all the source's
patterns use. -/
def lowerChars (l : List Char) : List Char :=
  l.map Char.toLower

/-- JS `hay.includes(pat)` on whole strings. -/
def jsIncludes (hay pat : String) : Bool :=
  subMatch pat.data hay.data

/-- Fuel-driven decimal rendering of a natural number (the fuel is always
sufficient, and keeps the recursion structural so the kernel can reduce it). -/
def natCharsAux : Nat → Nat → List Char → List Char
  | 0, _, acc => acc
  | fuel + 1, n, acc =>
    let d := Nat.digitChar (n % 10)
    if n / 10 = 0 then d :: acc
    else natCharsAux fuel (n / 10) (d :: acc)

/-- Decimal digit characters of a natural number, most significant first. -/
def natChars (n : Nat) : List Char :=
  natCharsAux (n + 1) n []

/-- JS `Array.prototype.join(sep)`. -/
def joinSep (sep : String) : List String → String
  | [] => ""
  | [s] => s
  | s :: rest => s ++ sep ++ joinSep sep rest

/-! ### Trace events and the classifier -/

/-- A Chrome trace event, restricted to the fields the source reads:
phase code `ph`, microsecond duration `dur`, `name`, comma-separated
category list `cat`, thread id `tid`, and `args.data.url` (flattened to
`argsUrl`).  Every field may be absent (`undefined` in JS). -/
structure TraceEvent where
  ph : Option String := none
  dur : Option ℚ := none
  name : Option String := none
  cat : Option String := none
  tid : Option Int := none
  argsUrl : Option String := none
deriving DecidableEq

/-- Categories that can influence TBT (verbatim from the source). -/
def tbtCategories : List String :=
  ["devtools.timeline", "loading", "scripting", "rendering", "painting",
   "v8", "v8.execute", "blink", "benchmark",
   "disabled-by-default-devtools.timeline"]

/-- Task types that can influence TBT (verbatim from the source). -/
def tbtTaskTypes : List String :=
  ["Script", "EvaluateScript", "V8.CompileScript", "V8.CompileCode",
   "V8.CompileIgnition", "V8.CompileEval", "FunctionCall", "v8.callFunction",
   "TimerFire", "EventDispatch", "RunTask",
   "Layout", "UpdateLayoutTree", "RecalculateStyles", "ParseHTML",
   "ParseAuthorStyleSheet", "StyleRecalculation", "UpdateLayer", "Layerize",
   "Paint", "CompositeLayers", "UpdateLayerTree", "PrePaint",
   "XHRReadyStateChange", "ResourceSendRequest", "ResourceReceiveResponse",
   "ResourceFinish"]

/-- The source's `containsAny` helper: case-insensitive substring match of
any pattern, with the `!str` falsiness guard. -/
def containsAny (str : String) (patterns : List String) : Bool :=
  if str == "" then false
  else patterns.any fun p => subMatch (lowerChars p.data) (lowerChars str.data)

/-- JS truthiness of `event.dur` (`undefined` and `0` are falsy). -/
def durTruthy : Option ℚ → Bool
  | none => false
  | some d => d != 0

/-- The main-thread heuristic:
`event.tid === 1 || event.name?.includes('MainThread') ||
 event.cat?.includes('devtools.timeline')`. -/
def mainThreadCheck (e : TraceEvent) : Bool :=
  (e.tid == some 1)
  || (match e.name with
      | some n => jsIncludes n "MainThread"
      | none => false)
  || (match e.cat with
      | some c => jsIncludes c "devtools.timeline"
      | none => false)

/-- The category branch: `event.cat` is truthy and some known TBT category
occurs (case-insensitively, as a substring) in some comma-separated,
trimmed element of `event.cat`. -/
def catBranch (e : TraceEvent) : Bool :=
  match e.cat with
  | none => false
  | some c =>
    (c != "") && tbtCategories.any fun cat =>
      (splitOnChar ',' c.data).any fun part =>
        subMatch (lowerChars cat.data) (lowerChars (trimChars part))

/-- The task-type branch: `event.name` is truthy and contains one of the
known TBT task-type substrings, case-insensitively. -/
def nameBranch (e : TraceEvent) : Bool :=
  match e.name with
  | none => false
  | some n => containsAny n tbtTaskTypes

/-- `isPotentialTBTTask` from the source: complete-phase event with a
truthy duration, on the main thread, matching a TBT category or task type. -/
def isPotentialTBTTask (e : TraceEvent) : Bool :=
  (e.ph == some "X")
  && durTruthy e.dur
  && (mainThreadCheck e && (catBranch e || nameBranch e))

/-! ### Blocking time, keys, aggregation -/

/-- `calculateBlockingTime`: duration in ms is `dur / 1000`; the result is
the portion above 50 ms.  (An absent `dur` makes `durationMs` NaN in JS and
the comparison false, so `getD 0` reproduces the observable result 0.) -/
def calculateBlockingTime (e : TraceEvent) : ℚ :=
  let durationMs := e.dur.getD 0 / 1000
  if durationMs > 50 then durationMs - 50 else 0

/-- JS `a || b` on an optional string where "" is falsy. -/
def optOr (o : Option String) (dflt : String) : String :=
  match o with
  | some s => if s == "" then dflt else s
  | none => dflt

/-- `getEventKey`: `event.name || 'Unknown Task'`. -/
def getEventKey (e : TraceEvent) : String :=
  optOr e.name "Unknown Task"

/-- `getEventUrl`: `event.args?.data?.url || ''`. -/
def getEventUrl (e : TraceEvent) : String :=
  optOr e.argsUrl ""

/-- A per-run aggregated task (field order as in the source object). -/
structure Task where
  name : String
  url : String
  blockingTime : ℚ
  totalDuration : ℚ
  occurrences : Nat
  category : String
deriving DecidableEq

/-- The composite identity used by both the aggregator and the merger. -/
def taskKey (t : Task) : String :=
  t.name ++ "|" ++ t.url

/-- The aggregator's unique key for an event. -/
def eventUniqueKey (e : TraceEvent) : String :=
  getEventKey e ++ "|" ++ getEventUrl e

/-- JS `Map.set` on an insertion-ordered association list: replace the
value at an existing key in place, else append the binding. -/
def assocSet : List (String × α) → String → α → List (String × α)
  | [], k, v => [(k, v)]
  | (k', v') :: rest, k, v =>
    if k' == k then (k, v) :: rest else (k', v') :: assocSet rest k v

/-- The fresh task record created when a key is first seen. -/
def freshTask (e : TraceEvent) : Task :=
  { name := getEventKey e, url := getEventUrl e, blockingTime := 0,
    totalDuration := 0, occurrences := 0, category := optOr e.cat "unknown" }

/-- Fold one event into the running task record. -/
def addEventToTask (t : Task) (e : TraceEvent) : Task :=
  { t with blockingTime := t.blockingTime + calculateBlockingTime e,
           totalDuration := t.totalDuration + e.dur.getD 0 / 1000,
           occurrences := t.occurrences + 1 }

/-- One iteration of the aggregation loop in `processTraceEvents`. -/
def processStep (acc : List (String × Task)) (e : TraceEvent) :
    List (String × Task) :=
  if isPotentialTBTTask e then
    let uniqueKey := eventUniqueKey e
    let task := (List.lookup uniqueKey acc).getD (freshTask e)
    assocSet acc uniqueKey (addEventToTask task e)
  else acc

/-- `processTraceEvents`: fold all events through the task map and return
the task records in insertion order (`Array.from(tasks.values())`). -/
def processTraceEvents (events : List TraceEvent) : List Task :=
  (events.foldl processStep []).map Prod.snd

example :
    processTraceEvents
      [{ ph := some "X", dur := some 150000, name := some "EvaluateScript",
         cat := some "devtools.timeline,v8", tid := some 1 }] =
      [{ name := "EvaluateScript", url := "", blockingTime := 100,
         totalDuration := 150, occurrences := 1,
         category := "devtools.timeline,v8" }] := by
  with_unfolding_all decide

/-! ### Rendering and the report merger -/

/-- Floor of a rational (numerator floor-divided by denominator). -/
def ratFloor (q : ℚ) : ℤ :=
  Int.fdiv q.num (q.den : ℤ)

/-- JS `Number.prototype.toFixed(2)` on an exact rational: per the
ECMAScript algorithm, negate a negative argument and prepend a sign, round
to the nearest hundredth (ties up), and render with exactly two fraction
digits. -/
def toFixed2 (q : ℚ) : String :=
  let x : ℚ := if q < 0 then -q else q
  let m : Nat := (ratFloor (x * 100 + 1 / 2)).toNat
  String.mk ((if q < 0 then ['-'] else [])
    ++ natChars (m / 100)
    ++ '.' :: [Nat.digitChar (m % 100 / 10), Nat.digitChar (m % 100 % 10)])

/-- JS `n.toString()` for the occurrence counter. -/
def natToString (n : Nat) : String :=
  String.mk (natChars n)

/-- The three metric cells pushed for a task in the current run. -/
def taskMetrics (t : Task) : List String :=
  [toFixed2 t.blockingTime, toFixed2 t.totalDuration,
   natToString t.occurrences]

/-- The header created for a brand-new report. -/
def reportHeader1 : List String :=
  ["Task Name", "URL", "Category", "Has Long Tasks",
   "Run 1 (Blocking Time)", "Run 1 (Total Duration)", "Run 1 (Occurrences)"]

/-- A data row emitted for the first run. -/
def firstRunRow (t : Task) : List String :=
  [t.name, t.url, t.category,
   if 0 < t.blockingTime then "Yes" else "No",
   toFixed2 t.blockingTime, toFixed2 t.totalDuration,
   natToString t.occurrences]

/-- One of the three header labels appended for run `n`. -/
def runLabel (n : ℤ) (metric : String) : String :=
  "Run " ++ toString n ++ " (" ++ metric ++ ")"

/-- The row key `row[0] + "|" + row[1]` (a missing cell stringifies to
"undefined" in the JS template literal). -/
def rowKeyOf (row : List String) : String :=
  row.getD 0 "undefined" ++ "|" ++ row.getD 1 "undefined"

/-- The `for (let i = 1; ...)` loop building the key-to-row-index map. -/
def buildTaskMapAux : Nat → List (List String) → List (String × Nat) →
    List (String × Nat)
  | _, [], m => m
  | i, r :: rs, m => buildTaskMapAux (i + 1) rs (assocSet m (rowKeyOf r) i)

/-- The key-to-row-index map over the data rows (indices start at 1). -/
def buildTaskMap (report : List (List String)) : List (String × Nat) :=
  match report with
  | [] => []
  | _ :: rows => buildTaskMapAux 1 rows []

/-- Replace the element at an index, leaving the list unchanged when the
index is out of range. -/
def listModify : List α → Nat → (α → α) → List α
  | [], _, _ => []
  | a :: l, 0, f => f a :: l
  | a :: l, n + 1, f => a :: listModify l n f

/-- The mutable state of the merge loop: the report being updated in
place, the key-to-row-index map, and the keys already updated this run. -/
structure MergeState where
  report : List (List String)
  taskMap : List (String × Nat)
  updatedTasks : List String

/-- One iteration of `tasks.forEach` in `updateReport` (`runCount` is the
number of `'-1','-1','-1'` triples to prepend for a brand-new row; the JS
loop runs `max 0 runCount` times). -/
def mergeStep (runCount : Nat) (st : MergeState) (task : Task) :
    MergeState :=
  let key := taskKey task
  match List.lookup key st.taskMap with
  | none =>
    let rowIndex := st.report.length
    let newRow := [task.name, task.url, task.category,
        if 0 < task.blockingTime then "Yes" else "No"]
      ++ (List.replicate runCount ["-1", "-1", "-1"]).flatten
    let report1 := st.report ++ [newRow]
    { report := listModify report1 rowIndex (· ++ taskMetrics task),
      taskMap := assocSet st.taskMap key rowIndex,
      updatedTasks := st.updatedTasks ++ [key] }
  | some rowIndex =>
    let report1 :=
      if 0 < task.blockingTime then
        listModify st.report rowIndex (fun r => r.set 3 "Yes")
      else st.report
    { report := listModify report1 rowIndex (· ++ taskMetrics task),
      taskMap := st.taskMap,
      updatedTasks := st.updatedTasks ++ [key] }

/-- One iteration of the final `taskMap.forEach` pass: rows whose key was
not updated this run get the `'-1','-1','-1'` absence sentinel. -/
def fillStep (updatedTasks : List String) (rep : List (List String))
    (p : String × Nat) : List (List String) :=
  if updatedTasks.contains p.1 then rep
  else listModify rep p.2 (· ++ ["-1", "-1", "-1"])

/-- The two loops of the nonempty-report branch of `updateReport`: the
`tasks.forEach` merge loop followed by the `taskMap.forEach` sentinel-fill
pass. -/
def mergeFinal (rc : Nat) (st0 : MergeState) (tasks : List Task) :
    List (List String) :=
  let st1 := tasks.foldl (mergeStep rc) st0
  st1.taskMap.foldl (fillStep st1.updatedTasks) st1.report

/-- `updateReport` from the source.  An empty report gets the fixed header
plus the Run 1 columns and one row per task; otherwise three columns are
appended for the new run, existing rows are updated by key, new keys get
new rows padded with `-1` for prior runs, and rows absent from this run
get a trailing `-1,-1,-1`. -/
def updateReport (existingReport : List (List String)) (tasks : List Task) :
    List (List String) :=
  match existingReport with
  | [] => reportHeader1 :: tasks.map firstRunRow
  | headerRow :: restRows =>
    let runCountZ : ℤ := Int.fdiv ((headerRow.length : ℤ) - 4) 3
    let nextRunNumber : ℤ := runCountZ + 1
    let header2 := headerRow ++
      [runLabel nextRunNumber "Blocking Time",
       runLabel nextRunNumber "Total Duration",
       runLabel nextRunNumber "Occurrences"]
    let report0 := header2 :: restRows
    mergeFinal runCountZ.toNat
      { report := report0, taskMap := buildTaskMap report0,
        updatedTasks := [] } tasks

example :
    updateReport []
      [{ name := "EvaluateScript", url := "", blockingTime := 100,
         totalDuration := 150, occurrences := 1,
         category := "devtools.timeline,v8" }] =
    [reportHeader1,
     ["EvaluateScript", "", "devtools.timeline,v8", "Yes",
      "100.00", "150.00", "1"]] := by
  with_unfolding_all decide

example :
    updateReport
      [reportHeader1,
       ["EvaluateScript", "", "devtools.timeline,v8", "Yes",
        "100.00", "150.00", "1"]] [] =
    [reportHeader1 ++
      ["Run 2 (Blocking Time)", "Run 2 (Total Duration)",
       "Run 2 (Occurrences)"],
     ["EvaluateScript", "", "devtools.timeline,v8", "Yes",
      "100.00", "150.00", "1", "-1", "-1", "-1"]] := by
  decide

/-! ### The run: reading, validating, merging, writing -/

/-- The shape of the parsed trace JSON, as far as the validation in
`analyzeTrace` inspects it: a bare array of events, an object whose
`traceEvents` field is an array of events (`none` when the field is
missing or not an array), or any other JSON value (null, number, string,
boolean — all falsy or array-less, hence invalid). -/
inductive TraceJson where
  | arrayOf (events : List TraceEvent)
  | objectWith (traceEvents : Option (List TraceEvent))
  | otherJson
deriving DecidableEq

/-- The fatal error classes of `analyzeTrace`. -/
inductive RunError where
  | inputNotFound
  | jsonParse
  | invalidFormat
deriving DecidableEq

/-- The boundary I/O effects of one run, in program order. -/
inductive IOAction where
  | readTraceFile
  | readReportFile
  | writeReportFile (content : String)
deriving DecidableEq

/-- The environment a run starts in: `traceFile` is `none` when the input
file is missing, `some none` when its content is not valid JSON, and
`some (some j)` when it parses to `j`; `reportFile` is the on-disk report
content, when the file exists. -/
structure RunEnv where
  traceFile : Option (Option TraceJson)
  reportFile : Option String

/-- `events = Array.isArray(traceData) ? traceData : traceData.traceEvents`,
returning `none` exactly when the validation at the top of `analyzeTrace`
throws the invalid-format error. -/
def extractEvents : TraceJson → Option (List TraceEvent)
  | .arrayOf events => some events
  | .objectWith (some events) => some events
  | .objectWith none => none
  | .otherJson => none

/-- `parseCSV`: empty-after-trim content is the empty report, otherwise
trimmed lines split on tabs. -/
def parseCSV (content : String) : List (List String) :=
  if trimChars content.data = [] then []
  else (splitOnChar '\n' (trimChars content.data)).map fun line =>
    (splitOnChar '\t' line).map String.mk

/-- `writeReport`'s serialization: rows joined by tabs, lines by newlines. -/
def serializeReport (report : List (List String)) : String :=
  joinSep "\n" (report.map fun row => joinSep "\t" row)

/-- The whole `analyzeTrace` run over an abstract environment, returning
the I/O actions performed in order, the outcome, and the final on-disk
report content.  Mirrors the source's statement order: read and validate
the trace, read any existing report, classify and aggregate, merge, and
only then write — and `writeReport` skips the write when the content is
unchanged. -/
def analyzeTraceRun (env : RunEnv) :
    List IOAction × Except RunError Unit × Option String :=
  match env.traceFile with
  | none => ([], Except.error RunError.inputNotFound, env.reportFile)
  | some none =>
    ([IOAction.readTraceFile], Except.error RunError.jsonParse,
     env.reportFile)
  | some (some traceJson) =>
    match extractEvents traceJson with
    | none =>
      ([IOAction.readTraceFile], Except.error RunError.invalidFormat,
       env.reportFile)
    | some events =>
      let readActions := [IOAction.readTraceFile] ++
        (match env.reportFile with
         | some _ => [IOAction.readReportFile]
         | none => [])
      let existingReport :=
        match env.reportFile with
        | some c => parseCSV c
        | none => []
      let tasks := processTraceEvents events
      let content := serializeReport (updateReport existingReport tasks)
      let existingContent := env.reportFile.getD ""
      if content == existingContent then
        (readActions, Except.ok (), env.reportFile)
      else
        (readActions ++ [IOAction.writeReportFile content],
         Except.ok (), some content)

/-! ### C4: blocking time -/

/-- C4: for every event with a duration, `calculateBlockingTime` returns 0
when the duration in milliseconds (`dur / 1000`) is at most 50 and
`durationMs - 50` otherwise, and the result is never negative. -/
theorem calculateBlockingTime_spec (e : TraceEvent) (d : ℚ)
    (h : e.dur = some d) :
    (d / 1000 ≤ 50 → calculateBlockingTime e = 0) ∧
    (50 < d / 1000 → calculateBlockingTime e = d / 1000 - 50) ∧
    0 ≤ calculateBlockingTime e := by
  unfold calculateBlockingTime
  rw [h]
  simp only [Option.getD_some]
  refine ⟨fun hle => ?_, fun hlt => ?_, ?_⟩
  · rw [if_neg (not_lt.mpr hle)]
  · rw [if_pos hlt]
  · split_ifs with h50
    · linarith
    · exact le_refl 0

theorem calculateBlockingTime_spec_witness :
    ((150000 : ℚ) / 1000 ≤ 50 →
      calculateBlockingTime { dur := some 150000 } = 0) ∧
    (50 < (150000 : ℚ) / 1000 →
      calculateBlockingTime { dur := some 150000 } =
        (150000 : ℚ) / 1000 - 50) ∧
    0 ≤ calculateBlockingTime { dur := some 150000 } :=
  calculateBlockingTime_spec { dur := some 150000 } 150000 rfl

/-! ### C5: classifier necessary conditions -/

/-- C5: an event with an absent or zero duration, or a phase other than
the complete-event phase `'X'`, is never a potential TBT task. -/
theorem isPotentialTBTTask_requires (e : TraceEvent)
    (h : e.dur = none ∨ e.dur = some 0 ∨ e.ph ≠ some "X") :
    isPotentialTBTTask e = false := by
  rcases h with h | h | h
  · simp [isPotentialTBTTask, h, durTruthy]
  · simp [isPotentialTBTTask, h, durTruthy]
  · simp [isPotentialTBTTask, beq_iff_eq, h]

theorem isPotentialTBTTask_requires_witness :
    ({ ph := some "X", name := some "EvaluateScript",
       cat := some "scripting", tid := some 1 } : TraceEvent).dur = none ∧
    isPotentialTBTTask
      { ph := some "X", name := some "EvaluateScript",
        cat := some "scripting", tid := some 1 } = false :=
  ⟨rfl, isPotentialTBTTask_requires _ (Or.inl rfl)⟩

/-! ### C6: the scripting-category sufficiency claim -/

/-- C6 counterexample: an event whose category list contains "scripting"
and which passes the main-thread check (thread id 1), but which the
classifier rejects, because its phase is not `'X'`.  The claim as stated
omits the phase and duration requirements. -/
theorem scripting_mainThread_not_sufficient :
    (splitOnChar ',' "scripting".data).any
      (fun part => subMatch (lowerChars "scripting".data)
        (lowerChars (trimChars part))) = true ∧
    ({ dur := some 1000, cat := some "scripting",
       tid := some 1 } : TraceEvent).tid = some 1 ∧
    isPotentialTBTTask
      { dur := some 1000, cat := some "scripting", tid := some 1 } =
      false := by
  with_unfolding_all decide

/-- C6 amended: for a complete-phase event with a truthy duration, a
category-list element containing "scripting" (case-insensitively) plus the
main-thread check make the classifier return true, whatever the name. -/
theorem isPotentialTBTTask_scripting (e : TraceEvent)
    (hph : e.ph = some "X")
    (hdur : ∃ d, e.dur = some d ∧ d ≠ 0)
    (hmain : e.tid = some 1 ∨
      (∃ n, e.name = some n ∧ jsIncludes n "MainThread" = true) ∨
      (∃ c, e.cat = some c ∧ jsIncludes c "devtools.timeline" = true))
    (hscript : ∃ c, e.cat = some c ∧
      (splitOnChar ',' c.data).any
        (fun part => subMatch (lowerChars "scripting".data)
          (lowerChars (trimChars part))) = true) :
    isPotentialTBTTask e = true := by
  obtain ⟨d, hd, hd0⟩ := hdur
  obtain ⟨c, hc, hcs⟩ := hscript
  have h1 : durTruthy e.dur = true := by simp [durTruthy, hd, hd0]
  have h2 : mainThreadCheck e = true := by
    rcases hmain with hm | ⟨n, hn, hni⟩ | ⟨c', hc', hci⟩
    · simp [mainThreadCheck, hm]
    · simp [mainThreadCheck, hn, hni]
    · simp [mainThreadCheck, hc', hci]
  have h3 : catBranch e = true := by
    by_cases hce : c = ""
    · subst hce
      exact absurd hcs (by decide)
    · simp only [catBranch, hc]
      have hne : (c != "") = true := by simp [hce]
      rw [hne, Bool.true_and, List.any_eq_true]
      exact ⟨"scripting", by decide, hcs⟩
  simp [isPotentialTBTTask, hph, h1, h2, h3]

theorem isPotentialTBTTask_scripting_witness :
    isPotentialTBTTask
      { ph := some "X", dur := some 1000, name := some "no such task type",
        cat := some "Scripting", tid := some 1 } = true :=
  isPotentialTBTTask_scripting _ rfl
    ⟨1000, rfl, by with_unfolding_all decide⟩
    (Or.inl rfl)
    ⟨"Scripting", rfl, by decide⟩

/-! ### C9: invalid trace shape and write-free failure -/

/-- C9: a parsed trace that is neither an array nor an object containing
an event array fails with the invalid-format error, and every failing run
performs no report write and leaves the on-disk report unchanged. -/
theorem analyzeTraceRun_invalidFormat (env : RunEnv) (j : TraceJson)
    (h1 : env.traceFile = some (some j))
    (h2 : (∀ evs, j ≠ TraceJson.arrayOf evs) ∧
          (∀ evs, j ≠ TraceJson.objectWith (some evs))) :
    (analyzeTraceRun env).2.1 = Except.error RunError.invalidFormat ∧
    (∀ c, IOAction.writeReportFile c ∉ (analyzeTraceRun env).1) ∧
    (analyzeTraceRun env).2.2 = env.reportFile ∧
    (∀ env' e, (analyzeTraceRun env').2.1 = Except.error e →
      (∀ c, IOAction.writeReportFile c ∉ (analyzeTraceRun env').1) ∧
      (analyzeTraceRun env').2.2 = env'.reportFile) := by
  have hex : extractEvents j = none := by
    cases j with
    | arrayOf evs => exact absurd rfl (h2.1 evs)
    | objectWith o =>
      cases o with
      | none => rfl
      | some evs => exact absurd rfl (h2.2 evs)
    | otherJson => rfl
  have hkey : analyzeTraceRun env =
      ([IOAction.readTraceFile], Except.error RunError.invalidFormat,
       env.reportFile) := by
    simp only [analyzeTraceRun, h1, hex]
  refine ⟨by rw [hkey], ?_, by rw [hkey], ?_⟩
  · intro c hc
    rw [hkey] at hc
    simp at hc
  · intro env' e herr
    rcases henv : env'.traceFile with _ | (_ | j')
    · have hk : analyzeTraceRun env' =
          ([], Except.error RunError.inputNotFound, env'.reportFile) := by
        simp only [analyzeTraceRun, henv]
      exact ⟨fun c hc => by rw [hk] at hc; simp at hc, by rw [hk]⟩
    · have hk : analyzeTraceRun env' =
          ([IOAction.readTraceFile], Except.error RunError.jsonParse,
           env'.reportFile) := by
        simp only [analyzeTraceRun, henv]
      exact ⟨fun c hc => by rw [hk] at hc; simp at hc, by rw [hk]⟩
    · rcases hex' : extractEvents j' with _ | evs
      · have hk : analyzeTraceRun env' =
            ([IOAction.readTraceFile], Except.error RunError.invalidFormat,
             env'.reportFile) := by
          simp only [analyzeTraceRun, henv, hex']
        exact ⟨fun c hc => by rw [hk] at hc; simp at hc, by rw [hk]⟩
      · have hok : (analyzeTraceRun env').2.1 = Except.ok () := by
          simp only [analyzeTraceRun, henv, hex']
          split <;> rfl
        rw [hok] at herr
        exact absurd herr (by simp)

theorem analyzeTraceRun_invalidFormat_witness :
    (analyzeTraceRun
      { traceFile := some (some TraceJson.otherJson),
        reportFile := some "existing report" }).2.1 =
      Except.error RunError.invalidFormat ∧
    (analyzeTraceRun
      { traceFile := some (some TraceJson.otherJson),
        reportFile := some "existing report" }).2.2 =
      some "existing report" :=
  have h := analyzeTraceRun_invalidFormat
    { traceFile := some (some TraceJson.otherJson),
      reportFile := some "existing report" }
    TraceJson.otherJson rfl
    ⟨fun _evs h => TraceJson.noConfusion h,
     fun _evs h => TraceJson.noConfusion h⟩
  ⟨h.1, h.2.2.1⟩

/-! ### Association-list lemmas (JS `Map` semantics) -/

theorem lookup_assocSet_self (l : List (String × α)) (k : String) (v : α) :
    List.lookup k (assocSet l k v) = some v := by
  induction l with
  | nil => simp [assocSet, List.lookup]
  | cons p rest ih =>
    obtain ⟨k', v'⟩ := p
    by_cases h : k' = k
    · subst h
      simp [assocSet, List.lookup]
    · simp only [assocSet, beq_iff_eq, if_neg h, List.lookup]
      rw [beq_eq_false_iff_ne.mpr (fun hk => h hk.symm)]
      exact ih

theorem lookup_assocSet_ne (l : List (String × α)) (k k' : String) (v : α)
    (h : k' ≠ k) :
    List.lookup k' (assocSet l k v) = List.lookup k' l := by
  induction l with
  | nil =>
    simp only [assocSet, List.lookup]
    rw [beq_eq_false_iff_ne.mpr h]
  | cons p rest ih =>
    obtain ⟨k₀, v₀⟩ := p
    by_cases h0 : k₀ = k
    · subst h0
      simp only [assocSet, beq_self_eq_true, if_pos, List.lookup]
      rw [beq_eq_false_iff_ne.mpr h]
    · simp only [assocSet, beq_iff_eq, if_neg h0, List.lookup]
      by_cases h1 : k' = k₀
      · subst h1
        rw [beq_self_eq_true]
      · rw [beq_eq_false_iff_ne.mpr h1]
        exact ih

theorem mem_assocSet (l : List (String × α)) (k : String) (v : α)
    (p : String × α) (hp : p ∈ assocSet l k v) : p ∈ l ∨ p = (k, v) := by
  induction l with
  | nil => simpa [assocSet] using hp
  | cons q rest ih =>
    obtain ⟨k₀, v₀⟩ := q
    by_cases h0 : k₀ = k
    · subst h0
      simp only [assocSet, beq_self_eq_true, if_pos] at hp
      rcases List.mem_cons.mp hp with h | h
      · exact Or.inr h
      · exact Or.inl (List.mem_cons_of_mem _ h)
    · simp only [assocSet, beq_iff_eq, if_neg h0] at hp
      rcases List.mem_cons.mp hp with h | h
      · exact Or.inl (h ▸ List.mem_cons_self _ _)
      · rcases ih h with h' | h'
        · exact Or.inl (List.mem_cons_of_mem _ h')
        · exact Or.inr h'

theorem keysNodup_assocSet (l : List (String × α)) (k : String) (v : α)
    (h : (l.map Prod.fst).Nodup) :
    ((assocSet l k v).map Prod.fst).Nodup := by
  induction l with
  | nil => simp [assocSet]
  | cons q rest ih =>
    obtain ⟨k₀, v₀⟩ := q
    simp only [List.map_cons, List.nodup_cons] at h
    by_cases h0 : k₀ = k
    · subst h0
      simpa [assocSet] using h
    · simp only [assocSet, beq_iff_eq, if_neg h0, List.map_cons,
        List.nodup_cons]
      refine ⟨fun hmem => ?_, ih h.2⟩
      rcases List.mem_map.mp hmem with ⟨p, hp, hfst⟩
      rcases mem_assocSet rest k v p hp with h' | h'
      · exact h.1 (hfst ▸ List.mem_map_of_mem Prod.fst h')
      · exact h0 (by rw [h'] at hfst; exact hfst.symm)

theorem lookup_some_mem (l : List (String × α)) (k : String) (v : α)
    (h : List.lookup k l = some v) : (k, v) ∈ l := by
  induction l with
  | nil => simp [List.lookup] at h
  | cons p rest ih =>
    obtain ⟨k₀, v₀⟩ := p
    by_cases h0 : k = k₀
    · subst h0
      simp only [List.lookup, beq_self_eq_true] at h
      exact Option.some.inj h ▸ List.mem_cons_self _ _
    · simp only [List.lookup] at h
      rw [beq_eq_false_iff_ne.mpr h0] at h
      exact List.mem_cons_of_mem _ (ih h)

theorem mem_lookup_of_keysNodup (l : List (String × α)) (k : String)
    (v : α) (hmem : (k, v) ∈ l) (hnd : (l.map Prod.fst).Nodup) :
    List.lookup k l = some v := by
  induction l with
  | nil => simp at hmem
  | cons p rest ih =>
    obtain ⟨k₀, v₀⟩ := p
    simp only [List.map_cons, List.nodup_cons] at hnd
    rcases List.mem_cons.mp hmem with h | h
    · injection h with h1 h2
      subst h1
      subst h2
      simp [List.lookup]
    · by_cases h0 : k = k₀
      · subst h0
        exact absurd (List.mem_map_of_mem Prod.fst h) hnd.1
      · simp only [List.lookup]
        rw [beq_eq_false_iff_ne.mpr h0]
        exact ih h hnd.2

/-! ### C8: the aggregator's per-key characterization -/

instance : Inhabited TraceEvent := ⟨{}⟩

/-- The qualifying events whose composite key is `k`. -/
def matchingEvents (events : List TraceEvent) (k : String) :
    List TraceEvent :=
  events.filter fun e => isPotentialTBTTask e && (eventUniqueKey e == k)

/-- Modelled from the spec's description of a Task, for comparison with
the aggregator: given the (nonempty, in encounter order) list of matching
events of one key, the sums of blocking time and duration, the count, and
the name/url/category drawn from the first matching event. -/
def specTaskOf (ms : List TraceEvent) : Task :=
  { name := getEventKey ms.headI, url := getEventUrl ms.headI,
    blockingTime := (ms.map calculateBlockingTime).sum,
    totalDuration := (ms.map fun e => e.dur.getD 0 / 1000).sum,
    occurrences := ms.length,
    category := optOr ms.headI.cat "unknown" }

theorem agg_invariant (events : List TraceEvent) :
    (((events.foldl processStep []).map Prod.fst).Nodup) ∧
    (∀ p ∈ events.foldl processStep [], p.1 = taskKey p.2) ∧
    (∀ k, List.lookup k (events.foldl processStep []) =
      (if matchingEvents events k = [] then none
       else some (specTaskOf (matchingEvents events k)))) := by
  induction events using List.reverseRecOn with
  | nil => exact ⟨by simp, by simp, fun k => by simp [matchingEvents]⟩
  | append_singleton evs e ih =>
    obtain ⟨ihnd, ihkey, ihlook⟩ := ih
    rw [List.foldl_append, List.foldl_cons, List.foldl_nil]
    by_cases hq : isPotentialTBTTask e
    · rw [processStep, if_pos hq]
      have hmatch : ∀ k, k ≠ eventUniqueKey e →
          matchingEvents (evs ++ [e]) k = matchingEvents evs k := by
        intro k hk
        have hne : (eventUniqueKey e == k) = false :=
          beq_eq_false_iff_ne.mpr fun h => hk h.symm
        simp [matchingEvents, List.filter_append, List.filter, hq, hne]
      have hmatchE : matchingEvents (evs ++ [e]) (eventUniqueKey e) =
          matchingEvents evs (eventUniqueKey e) ++ [e] := by
        simp [matchingEvents, List.filter_append, List.filter, hq]
      have hkeyNew : eventUniqueKey e =
          taskKey (addEventToTask
            ((List.lookup (eventUniqueKey e)
              (evs.foldl processStep [])).getD (freshTask e)) e) := by
        rcases hm : matchingEvents evs (eventUniqueKey e) with _ | ⟨e0, ms0⟩
        · rw [ihlook (eventUniqueKey e), hm, if_pos rfl]
          simp [addEventToTask, taskKey, freshTask, eventUniqueKey]
        · rw [ihlook (eventUniqueKey e), hm, if_neg (by simp)]
          have he0 : e0 ∈ matchingEvents evs (eventUniqueKey e) := by
            rw [hm]
            exact List.mem_cons_self _ _
          have hf := (List.mem_filter.mp he0).2
          rw [Bool.and_eq_true] at hf
          have hbeq : eventUniqueKey e0 = eventUniqueKey e :=
            beq_iff_eq.mp hf.2
          simp only [Option.getD_some, addEventToTask, taskKey, specTaskOf,
            List.headI_cons]
          exact hbeq.symm.trans rfl
      refine ⟨keysNodup_assocSet _ _ _ ihnd, ?_, ?_⟩
      · intro p hp
        rcases mem_assocSet _ _ _ _ hp with h | h
        · exact ihkey p h
        · rw [h]
          exact hkeyNew
      · intro k
        by_cases hk : k = eventUniqueKey e
        · subst hk
          rw [lookup_assocSet_self, hmatchE]
          rcases hm : matchingEvents evs (eventUniqueKey e) with _ | ⟨e0, ms0⟩
          · rw [List.nil_append, if_neg (by simp)]
            have hl : List.lookup (eventUniqueKey e)
                (evs.foldl processStep []) = none := by
              rw [ihlook (eventUniqueKey e), hm, if_pos rfl]
            rw [hl]
            simp only [Option.getD_none]
            refine congrArg some ?_
            simp [addEventToTask, freshTask, specTaskOf]
          · rw [if_neg (by simp)]
            have hl : List.lookup (eventUniqueKey e)
                (evs.foldl processStep []) =
                some (specTaskOf (e0 :: ms0)) := by
              rw [ihlook (eventUniqueKey e), hm, if_neg (by simp)]
            rw [hl]
            simp only [Option.getD_some]
            refine congrArg some ?_
            simp only [addEventToTask, specTaskOf, List.map_append,
              List.sum_append, List.length_append, List.map_cons,
              List.map_nil, List.sum_cons, List.sum_nil, List.cons_append,
              List.headI_cons, List.length_cons, List.length_nil,
              Task.mk.injEq, true_and, and_true]
            exact ⟨by ring, by ring⟩
        · rw [lookup_assocSet_ne _ _ _ _ hk, hmatch k hk]
          exact ihlook k
    · rw [processStep, if_neg hq]
      have hmatch' : ∀ k, matchingEvents (evs ++ [e]) k =
          matchingEvents evs k := by
        intro k
        simp [matchingEvents, List.filter_append, List.filter, hq]
      exact ⟨ihnd, ihkey, fun k => by rw [hmatch' k]; exact ihlook k⟩

/-- A qualifying event whose name contains the key separator `"|"`. -/
def collideEvent1 : TraceEvent :=
  { ph := some "X", dur := some 1000000, name := some "a|b",
    cat := some "devtools.timeline", tid := some 1, argsUrl := some "c" }

/-- A qualifying event with a different (name, url) pair than
`collideEvent1` but the same composite key `"a|b|c"`. -/
def collideEvent2 : TraceEvent :=
  { ph := some "X", dur := some 1000000, name := some "a",
    cat := some "devtools.timeline", tid := some 1, argsUrl := some "b|c" }

/-- C8 counterexample: two qualifying events with distinct (name, url)
pairs but the same composite key `name + "|" + url` (the `"|"` separator
is ambiguous when a name contains `"|"`).  The aggregator merges them into
a single task, so "one Task per distinct (name, url) pair" fails. -/
theorem processTraceEvents_pair_collision :
    isPotentialTBTTask collideEvent1 = true ∧
    isPotentialTBTTask collideEvent2 = true ∧
    (getEventKey collideEvent1, getEventUrl collideEvent1) ≠
      (getEventKey collideEvent2, getEventUrl collideEvent2) ∧
    (processTraceEvents [collideEvent1, collideEvent2]).length = 1 := by
  with_unfolding_all decide

/-- C8 amended: the aggregator produces exactly one task per distinct
composite key `name + "|" + url` among qualifying events; each task's
blocking time and total duration are sums over its matching events, its
occurrence count is their number, and its name, url and category come from
the first matching event (with the fallbacks "Unknown Task", "" and
"unknown" built into `getEventKey`/`getEventUrl`/`optOr`; later same-key
categories are ignored). -/
theorem processTraceEvents_spec (events : List TraceEvent) :
    ((processTraceEvents events).map taskKey).Nodup ∧
    (∀ k, (∃ t ∈ processTraceEvents events, taskKey t = k) ↔
      (∃ e ∈ events, isPotentialTBTTask e = true ∧ eventUniqueKey e = k)) ∧
    (∀ t ∈ processTraceEvents events,
      matchingEvents events (taskKey t) ≠ [] ∧
      t = specTaskOf (matchingEvents events (taskKey t))) := by
  obtain ⟨hnd, hkey, hlook⟩ := agg_invariant events
  have hmapeq : (processTraceEvents events).map taskKey =
      (events.foldl processStep []).map Prod.fst := by
    rw [processTraceEvents, List.map_map]
    exact (List.map_congr_left fun p hp => (hkey p hp).symm)
  have hmem : ∀ t ∈ processTraceEvents events,
      List.lookup (taskKey t) (events.foldl processStep []) = some t := by
    intro t ht
    rcases List.mem_map.mp ht with ⟨p, hp, hpt⟩
    have hpe : p = (taskKey t, t) := by
      rcases p with ⟨k, t'⟩
      cases hpt
      exact congrArg (fun s => (s, t')) (hkey _ hp)
    rw [hpe] at hp
    exact mem_lookup_of_keysNodup _ _ _ hp hnd
  refine ⟨hmapeq ▸ hnd, ?_, ?_⟩
  · intro k
    constructor
    · rintro ⟨t, ht, rfl⟩
      have hl := hmem t ht
      rw [hlook (taskKey t)] at hl
      rcases hm : matchingEvents events (taskKey t) with _ | ⟨e0, ms0⟩
      · rw [hm, if_pos rfl] at hl
        exact absurd hl (by simp)
      · have he0 : e0 ∈ matchingEvents events (taskKey t) := by
          rw [hm]
          exact List.mem_cons_self _ _
        have hf := List.mem_filter.mp he0
        have hq := hf.2
        rw [Bool.and_eq_true] at hq
        exact ⟨e0, hf.1, hq.1, beq_iff_eq.mp hq.2⟩
    · rintro ⟨e, he, hq, rfl⟩
      have hmm : e ∈ matchingEvents events (eventUniqueKey e) :=
        List.mem_filter.mpr ⟨he, by simp [hq]⟩
      have hne := List.ne_nil_of_mem hmm
      have hl := hlook (eventUniqueKey e)
      rw [if_neg hne] at hl
      have hmemp := lookup_some_mem _ _ _ hl
      refine ⟨specTaskOf (matchingEvents events (eventUniqueKey e)),
        List.mem_map_of_mem Prod.snd hmemp, ?_⟩
      exact (hkey _ hmemp).symm
  · intro t ht
    have hl := hmem t ht
    rw [hlook (taskKey t)] at hl
    by_cases hm : matchingEvents events (taskKey t) = []
    · rw [if_pos hm] at hl
      exact absurd hl (by simp)
    · rw [if_neg hm] at hl
      exact ⟨hm, (Option.some.inj hl).symm⟩

/-- The single qualifying event of the spec's end-to-end example. -/
def evalScriptEvent : TraceEvent :=
  { ph := some "X", dur := some 150000, name := some "EvaluateScript",
    cat := some "devtools.timeline,v8", tid := some 1 }

theorem processTraceEvents_spec_witness :
    ((processTraceEvents [evalScriptEvent]).map taskKey).Nodup ∧
    (∃ e ∈ [evalScriptEvent],
      isPotentialTBTTask e = true ∧
      eventUniqueKey e = "EvaluateScript|") :=
  have h := processTraceEvents_spec [evalScriptEvent]
  ⟨h.1, (h.2.1 "EvaluateScript|").mp
    ⟨{ name := "EvaluateScript", url := "", blockingTime := 100,
       totalDuration := 150, occurrences := 1,
       category := "devtools.timeline,v8" },
     by with_unfolding_all decide, by decide⟩⟩

/-! ### Frame lemmas for the merge loop -/

theorem listModify_length (l : List α) (i : Nat) (f : α → α) :
    (listModify l i f).length = l.length := by
  induction l generalizing i with
  | nil => rfl
  | cons a l ih =>
    cases i with
    | zero => rfl
    | succ n => simp [listModify, ih]

theorem listModify_getD_ne (l : List α) (i j : Nat) (f : α → α) (d : α)
    (h : i ≠ j) : (listModify l i f).getD j d = l.getD j d := by
  induction l generalizing i j with
  | nil => rfl
  | cons a l ih =>
    cases i with
    | zero =>
      cases j with
      | zero => exact absurd rfl h
      | succ m => simp [listModify]
    | succ n =>
      cases j with
      | zero => simp [listModify]
      | succ m =>
        simp only [listModify, List.getD_cons_succ]
        exact ih n m fun hnm => h (by rw [hnm])

theorem listModify_getD_self (l : List α) (i : Nat) (f : α → α) (d : α)
    (h : i < l.length) : (listModify l i f).getD i d = f (l.getD i d) := by
  induction l generalizing i with
  | nil => simp at h
  | cons a l ih =>
    cases i with
    | zero => simp [listModify]
    | succ n =>
      simp only [listModify, List.getD_cons_succ]
      exact ih n (by simpa using h)

theorem getD_set_ne (l : List α) (v : α) (i j : Nat) (d : α) (h : i ≠ j) :
    (l.set i v).getD j d = l.getD j d := by
  induction l generalizing i j with
  | nil => rfl
  | cons a l ih =>
    cases i with
    | zero =>
      cases j with
      | zero => exact absurd rfl h
      | succ m => simp [List.set]
    | succ n =>
      cases j with
      | zero => simp [List.set]
      | succ m =>
        simp only [List.set, List.getD_cons_succ]
        exact ih n m fun hnm => h (by rw [hnm])

theorem getD_set_self (l : List α) (v : α) (i : Nat) (d : α)
    (h : i < l.length) : (l.set i v).getD i d = v := by
  induction l generalizing i with
  | nil => simp at h
  | cons a l ih =>
    cases i with
    | zero => simp [List.set]
    | succ n =>
      simp only [List.set, List.getD_cons_succ]
      exact ih n (by simpa using h)

/-- How a pre-existing row may change across the merge: it never shrinks,
cells other than index 3 keep their values, and cell 3 keeps its value or
becomes "Yes". -/
def RowEvolve (r s : List String) : Prop :=
  r.length ≤ s.length ∧
  (∀ j, j < r.length → j ≠ 3 → s.getD j "" = r.getD j "") ∧
  (3 < r.length → s.getD 3 "" = r.getD 3 "" ∨ s.getD 3 "" = "Yes")

theorem rowEvolve_refl (r : List String) : RowEvolve r r :=
  ⟨le_refl _, fun _ _ _ => rfl, fun _ => Or.inl rfl⟩

theorem rowEvolve_trans (r s u : List String) (h1 : RowEvolve r s)
    (h2 : RowEvolve s u) : RowEvolve r u := by
  obtain ⟨hl1, hc1, h31⟩ := h1
  obtain ⟨hl2, hc2, h32⟩ := h2
  refine ⟨le_trans hl1 hl2, ?_, ?_⟩
  · intro j hj h3
    rw [hc2 j (lt_of_lt_of_le hj hl1) h3, hc1 j hj h3]
  · intro h3
    rcases h32 (lt_of_lt_of_le h3 hl1) with h | h
    · rw [h]
      exact h31 h3
    · exact Or.inr h

theorem rowEvolve_append (r ext : List String) : RowEvolve r (r ++ ext) := by
  refine ⟨by simp, ?_, ?_⟩
  · intro j hj _
    exact List.getD_append r ext "" j hj
  · intro h3
    exact Or.inl (List.getD_append r ext "" 3 h3)

theorem rowEvolve_set3_append (r ext : List String) :
    RowEvolve r (r.set 3 "Yes" ++ ext) := by
  refine ⟨by simp, ?_, ?_⟩
  · intro j hj h3
    rw [List.getD_append _ ext "" j (by simpa using hj)]
    exact getD_set_ne r "Yes" 3 j "" fun h => h3 h.symm
  · intro h3
    refine Or.inr ?_
    rw [List.getD_append _ ext "" 3 (by simpa using h3)]
    exact getD_set_self r "Yes" 3 "" h3

/-- The invariant of the merge loop: the report stays nonempty and the
key map only ever points at data rows (index at least 1). -/
def StepInv (st : MergeState) : Prop :=
  st.report ≠ [] ∧ ∀ p ∈ st.taskMap, 1 ≤ p.2

theorem buildTaskMapAux_mem (rows : List (List String)) (i : Nat)
    (m : List (String × Nat)) (p : String × Nat)
    (hp : p ∈ buildTaskMapAux i rows m) : p ∈ m ∨ i ≤ p.2 := by
  induction rows generalizing i m with
  | nil => exact Or.inl hp
  | cons r rs ih =>
    rcases ih (i + 1) _ hp with h | h
    · rcases mem_assocSet _ _ _ _ h with h' | h'
      · exact Or.inl h'
      · exact Or.inr (by rw [h'])
    · exact Or.inr (le_trans (Nat.le_succ i) h)

theorem rowEvolve_of_default (s : List String) :
    RowEvolve ([] : List String) s :=
  ⟨by simp, fun _ hj _ => by simp at hj, fun h3 => by simp at h3⟩

theorem mergeStep_length (rc : Nat) (st : MergeState) (t : Task) :
    st.report.length ≤ (mergeStep rc st t).report.length := by
  rcases hlk : List.lookup (taskKey t) st.taskMap with _ | j
  · simp only [mergeStep, hlk, listModify_length, List.length_append]
    omega
  · simp only [mergeStep, hlk, listModify_length]
    split <;> simp [listModify_length]

theorem mergeStep_stepInv (rc : Nat) (st : MergeState) (t : Task)
    (h : StepInv st) : StepInv (mergeStep rc st t) := by
  obtain ⟨hne, hmap⟩ := h
  have hlen0 : 0 < st.report.length := List.length_pos.mpr hne
  have hlen : 0 < (mergeStep rc st t).report.length :=
    lt_of_lt_of_le hlen0 (mergeStep_length rc st t)
  refine ⟨fun hcontra => by rw [hcontra] at hlen; simp at hlen, ?_⟩
  rcases hlk : List.lookup (taskKey t) st.taskMap with _ | j
  · simp only [mergeStep, hlk]
    intro p hp
    rcases mem_assocSet _ _ _ _ hp with h' | h'
    · exact hmap p h'
    · rw [h']
      exact hlen0
  · simp only [mergeStep, hlk]
    exact fun p hp => hmap p hp

theorem mergeStep_rowEvolve (rc : Nat) (st : MergeState) (t : Task)
    (i : Nat) :
    RowEvolve (st.report.getD i []) ((mergeStep rc st t).report.getD i []) := by
  rcases hlk : List.lookup (taskKey t) st.taskMap with _ | j
  · simp only [mergeStep, hlk]
    by_cases hi : i < st.report.length
    · rw [listModify_getD_ne _ _ _ _ _ (Nat.ne_of_gt hi),
        List.getD_append _ _ _ _ hi]
      exact rowEvolve_refl _
    · rw [List.getD_eq_default _ _ (Nat.le_of_not_lt hi)]
      exact rowEvolve_of_default _
  · simp only [mergeStep, hlk]
    by_cases hij : j = i
    · subst hij
      by_cases hj : j < st.report.length
      · have hj1 : j <
            (if 0 < t.blockingTime then
              listModify st.report j (fun r => r.set 3 "Yes")
             else st.report).length := by
          split <;> simpa [listModify_length] using hj
        rw [listModify_getD_self _ _ _ _ hj1]
        split
        · rw [listModify_getD_self _ _ _ _ hj]
          exact rowEvolve_set3_append _ _
        · exact rowEvolve_append _ _
      · have hjlen : st.report.length ≤ j := Nat.le_of_not_lt hj
        have hjlen1 :
            (listModify
              (if 0 < t.blockingTime then
                listModify st.report j (fun r => r.set 3 "Yes")
               else st.report) j (· ++ taskMetrics t)).length ≤ j := by
          rw [listModify_length]
          split <;> simpa [listModify_length] using hjlen
        rw [List.getD_eq_default _ _ hjlen1,
          List.getD_eq_default _ _ hjlen]
        exact rowEvolve_of_default _
    · rw [listModify_getD_ne _ _ _ _ _ hij]
      split
      · rw [listModify_getD_ne _ _ _ _ _ hij]
        exact rowEvolve_refl _
      · exact rowEvolve_refl _

theorem mergeStep_row0 (rc : Nat) (st : MergeState) (t : Task)
    (h : StepInv st) :
    (mergeStep rc st t).report.getD 0 [] = st.report.getD 0 [] := by
  obtain ⟨hne, hmap⟩ := h
  have hlen0 : 0 < st.report.length := List.length_pos.mpr hne
  rcases hlk : List.lookup (taskKey t) st.taskMap with _ | j
  · simp only [mergeStep, hlk]
    rw [listModify_getD_ne _ _ _ _ _ (Nat.ne_of_gt hlen0),
      List.getD_append _ _ _ _ hlen0]
  · have hj1 : 1 ≤ j := hmap _ (lookup_some_mem _ _ _ hlk)
    simp only [mergeStep, hlk]
    rw [listModify_getD_ne _ _ _ _ _ (by omega)]
    split
    · rw [listModify_getD_ne _ _ _ _ _ (by omega)]
    · rfl

theorem foldl_mergeStep_stepInv (rc : Nat) (ts : List Task)
    (st : MergeState) (h : StepInv st) :
    StepInv (ts.foldl (mergeStep rc) st) := by
  induction ts generalizing st with
  | nil => exact h
  | cons t ts ih => exact ih _ (mergeStep_stepInv rc st t h)

theorem foldl_mergeStep_length (rc : Nat) (ts : List Task)
    (st : MergeState) :
    st.report.length ≤ (ts.foldl (mergeStep rc) st).report.length := by
  induction ts generalizing st with
  | nil => exact le_refl _
  | cons t ts ih => exact le_trans (mergeStep_length rc st t) (ih _)

theorem foldl_mergeStep_rowEvolve (rc : Nat) (ts : List Task)
    (st : MergeState) (i : Nat) :
    RowEvolve (st.report.getD i [])
      ((ts.foldl (mergeStep rc) st).report.getD i []) := by
  induction ts generalizing st with
  | nil => exact rowEvolve_refl _
  | cons t ts ih =>
    exact rowEvolve_trans _ _ _ (mergeStep_rowEvolve rc st t i) (ih _)

theorem foldl_mergeStep_row0 (rc : Nat) (ts : List Task)
    (st : MergeState) (h : StepInv st) :
    (ts.foldl (mergeStep rc) st).report.getD 0 [] =
      st.report.getD 0 [] := by
  induction ts generalizing st with
  | nil => rfl
  | cons t ts ih =>
    rw [List.foldl_cons, ih _ (mergeStep_stepInv rc st t h),
      mergeStep_row0 rc st t h]

theorem fillStep_length (u : List String) (rep : List (List String))
    (p : String × Nat) : (fillStep u rep p).length = rep.length := by
  rw [fillStep]
  split
  · rfl
  · rw [listModify_length]

theorem foldl_fillStep_length (u : List String)
    (m : List (String × Nat)) (rep : List (List String)) :
    (m.foldl (fillStep u) rep).length = rep.length := by
  induction m generalizing rep with
  | nil => rfl
  | cons p m ih => rw [List.foldl_cons, ih, fillStep_length]

theorem fillStep_rowExtend (u : List String) (rep : List (List String))
    (p : String × Nat) (i : Nat) :
    ∃ ext, (fillStep u rep p).getD i [] = rep.getD i [] ++ ext := by
  rw [fillStep]
  split
  · exact ⟨[], by simp⟩
  · by_cases hip : p.2 = i
    · subst hip
      by_cases hp : p.2 < rep.length
      · exact ⟨["-1", "-1", "-1"], listModify_getD_self _ _ _ _ hp⟩
      · refine ⟨[], ?_⟩
        rw [List.getD_eq_default _ _
            (by rw [listModify_length]; exact Nat.le_of_not_lt hp),
          List.getD_eq_default _ _ (Nat.le_of_not_lt hp)]
        rfl
    · exact ⟨[], by rw [listModify_getD_ne _ _ _ _ _ hip, List.append_nil]⟩

theorem foldl_fillStep_rowExtend (u : List String)
    (m : List (String × Nat)) (rep : List (List String)) (i : Nat) :
    ∃ ext, (m.foldl (fillStep u) rep).getD i [] = rep.getD i [] ++ ext := by
  induction m generalizing rep with
  | nil => exact ⟨[], by simp⟩
  | cons p m ih =>
    obtain ⟨e1, he1⟩ := fillStep_rowExtend u rep p i
    obtain ⟨e2, he2⟩ := ih (fillStep u rep p)
    exact ⟨e1 ++ e2, by rw [List.foldl_cons, he2, he1, List.append_assoc]⟩

theorem fillStep_row0 (u : List String) (rep : List (List String))
    (p : String × Nat) (hp : 1 ≤ p.2) :
    (fillStep u rep p).getD 0 [] = rep.getD 0 [] := by
  rw [fillStep]
  split
  · rfl
  · exact listModify_getD_ne _ _ _ _ _ (by omega)

theorem foldl_fillStep_row0 (u : List String) (m : List (String × Nat))
    (rep : List (List String)) (h : ∀ p ∈ m, 1 ≤ p.2) :
    (m.foldl (fillStep u) rep).getD 0 [] = rep.getD 0 [] := by
  induction m generalizing rep with
  | nil => rfl
  | cons p m ih =>
    rw [List.foldl_cons, ih _ fun q hq => h q (List.mem_cons_of_mem _ hq),
      fillStep_row0 u rep p (h p (List.mem_cons_self _ _))]

theorem rowExtend_rowEvolve (r s : List String) (h : ∃ ext, s = r ++ ext) :
    RowEvolve r s := by
  obtain ⟨ext, rfl⟩ := h
  exact rowEvolve_append _ _

theorem mergeFinal_length (rc : Nat) (st : MergeState) (tasks : List Task) :
    st.report.length ≤ (mergeFinal rc st tasks).length := by
  rw [mergeFinal, foldl_fillStep_length]
  exact foldl_mergeStep_length rc tasks st

theorem mergeFinal_row0 (rc : Nat) (st : MergeState) (tasks : List Task)
    (h : StepInv st) :
    (mergeFinal rc st tasks).getD 0 [] = st.report.getD 0 [] := by
  rw [mergeFinal,
    foldl_fillStep_row0 _ _ _ (foldl_mergeStep_stepInv rc tasks st h).2,
    foldl_mergeStep_row0 rc tasks st h]

theorem mergeFinal_rowEvolve (rc : Nat) (st : MergeState)
    (tasks : List Task) (i : Nat) :
    RowEvolve (st.report.getD i []) ((mergeFinal rc st tasks).getD i []) := by
  rw [mergeFinal]
  exact rowEvolve_trans _ _ _ (foldl_mergeStep_rowEvolve rc tasks st i)
    (rowExtend_rowEvolve _ _ (foldl_fillStep_rowExtend _ _ _ i))

/-- The initial merge state of the nonempty-report branch is well formed. -/
theorem stepInv_init (H2 : List String) (rows : List (List String)) :
    StepInv { report := H2 :: rows, taskMap := buildTaskMap (H2 :: rows),
              updatedTasks := [] } := by
  refine ⟨by simp, fun p hp => ?_⟩
  rcases buildTaskMapAux_mem rows 1 [] p hp with h | h
  · simp at h
  · exact h

/-! ### C10: the merge's frame condition -/

/-- C10: merging into a nonempty report never shrinks it, never changes a
header cell, and changes no pre-existing data-row cell other than the
'Has Long Tasks' cell (index 3), which it can only overwrite with "Yes". -/
theorem updateReport_frame (R : List (List String)) (tasks : List Task)
    (hR : R ≠ []) :
    R.length ≤ (updateReport R tasks).length ∧
    (∀ j, j < (R.getD 0 []).length →
      ((updateReport R tasks).getD 0 []).getD j "" =
        (R.getD 0 []).getD j "") ∧
    (∀ i, 1 ≤ i → i < R.length →
      (R.getD i []).length ≤ ((updateReport R tasks).getD i []).length ∧
      (∀ j, j < (R.getD i []).length → j ≠ 3 →
        ((updateReport R tasks).getD i []).getD j "" =
          (R.getD i []).getD j "") ∧
      (3 < (R.getD i []).length →
        ((updateReport R tasks).getD i []).getD 3 "" =
            (R.getD i []).getD 3 "" ∨
          ((updateReport R tasks).getD i []).getD 3 "" = "Yes")) := by
  rcases R with _ | ⟨hd, rows⟩
  · exact absurd rfl hR
  have hup : updateReport (hd :: rows) tasks =
      mergeFinal (Int.fdiv ((hd.length : ℤ) - 4) 3).toNat
        { report := (hd ++
            [runLabel (Int.fdiv ((hd.length : ℤ) - 4) 3 + 1) "Blocking Time",
             runLabel (Int.fdiv ((hd.length : ℤ) - 4) 3 + 1) "Total Duration",
             runLabel (Int.fdiv ((hd.length : ℤ) - 4) 3 + 1) "Occurrences"])
            :: rows,
          taskMap := buildTaskMap ((hd ++
            [runLabel (Int.fdiv ((hd.length : ℤ) - 4) 3 + 1) "Blocking Time",
             runLabel (Int.fdiv ((hd.length : ℤ) - 4) 3 + 1) "Total Duration",
             runLabel (Int.fdiv ((hd.length : ℤ) - 4) 3 + 1) "Occurrences"])
            :: rows),
          updatedTasks := [] } tasks := rfl
  rw [hup]
  refine ⟨?_, ?_, ?_⟩
  · exact le_trans (le_of_eq (by simp)) (mergeFinal_length _ _ tasks)
  · intro j hj
    rw [mergeFinal_row0 _ _ _ (stepInv_init _ _)]
    simp only [List.getD_cons_zero] at hj ⊢
    exact List.getD_append _ _ _ _ hj
  · intro i h1 hi
    obtain ⟨i, rfl⟩ : ∃ i', i = i' + 1 := ⟨i - 1, by omega⟩
    have hrow := mergeFinal_rowEvolve
      (Int.fdiv ((hd.length : ℤ) - 4) 3).toNat
      { report := (hd ++
          [runLabel (Int.fdiv ((hd.length : ℤ) - 4) 3 + 1) "Blocking Time",
           runLabel (Int.fdiv ((hd.length : ℤ) - 4) 3 + 1) "Total Duration",
           runLabel (Int.fdiv ((hd.length : ℤ) - 4) 3 + 1) "Occurrences"])
          :: rows,
        taskMap := buildTaskMap ((hd ++
          [runLabel (Int.fdiv ((hd.length : ℤ) - 4) 3 + 1) "Blocking Time",
           runLabel (Int.fdiv ((hd.length : ℤ) - 4) 3 + 1) "Total Duration",
           runLabel (Int.fdiv ((hd.length : ℤ) - 4) 3 + 1) "Occurrences"])
          :: rows),
        updatedTasks := [] } tasks (i + 1)
    simp only [List.getD_cons_succ] at hrow ⊢
    exact ⟨hrow.1, hrow.2.1, hrow.2.2⟩

theorem updateReport_frame_witness :
    ([reportHeader1] : List (List String)).length ≤
      (updateReport [reportHeader1] []).length :=
  (updateReport_frame [reportHeader1] [] (by simp)).1

/-! ### C3: monotonicity of the 'Has Long Tasks' flag -/

theorem mergeStep_lookup_mono (rc : Nat) (st : MergeState) (t : Task)
    (k : String) (v : Nat) (h : List.lookup k st.taskMap = some v) :
    List.lookup k (mergeStep rc st t).taskMap = some v := by
  rcases hlk : List.lookup (taskKey t) st.taskMap with _ | j
  · simp only [mergeStep, hlk]
    have hk : k ≠ taskKey t := fun he => by
      rw [he, hlk] at h
      exact Option.noConfusion h
    rw [lookup_assocSet_ne _ _ _ _ hk]
    exact h
  · simp only [mergeStep, hlk]
    exact h

theorem foldl_mergeStep_lookup_mono (rc : Nat) (ts : List Task)
    (st : MergeState) (k : String) (v : Nat)
    (h : List.lookup k st.taskMap = some v) :
    List.lookup k ((ts.foldl (mergeStep rc) st).taskMap) = some v := by
  induction ts generalizing st with
  | nil => exact h
  | cons t ts ih => exact ih _ (mergeStep_lookup_mono rc st t k v h)

theorem rowEvolve_yesAt (r s : List String) (h : RowEvolve r s)
    (hy : 4 ≤ r.length ∧ r.getD 3 "" = "Yes") :
    4 ≤ s.length ∧ s.getD 3 "" = "Yes" := by
  obtain ⟨hl, _, h3⟩ := h
  refine ⟨le_trans hy.1 hl, ?_⟩
  rcases h3 (by omega) with h | h
  · rw [h, hy.2]
  · exact h

theorem mergeStep_sets_yes (rc : Nat) (st : MergeState) (t : Task)
    (i : Nat) (hlk : List.lookup (taskKey t) st.taskMap = some i)
    (hbt : 0 < t.blockingTime)
    (hlen : 4 ≤ (st.report.getD i []).length) :
    4 ≤ ((mergeStep rc st t).report.getD i []).length ∧
    ((mergeStep rc st t).report.getD i []).getD 3 "" = "Yes" := by
  have hi : i < st.report.length := by
    by_contra hno
    rw [List.getD_eq_default _ _ (Nat.le_of_not_lt hno)] at hlen
    simp at hlen
  simp only [mergeStep, hlk]
  rw [if_pos hbt]
  have h1 : i < (listModify st.report i (fun r => r.set 3 "Yes")).length := by
    rw [listModify_length]
    exact hi
  rw [listModify_getD_self _ _ _ _ h1, listModify_getD_self _ _ _ _ hi]
  constructor
  · rw [List.length_append, List.length_set]
    omega
  · rw [List.getD_append _ _ _ _ (by rw [List.length_set]; omega)]
    exact getD_set_self _ _ _ _ (by omega)

theorem mergeFinal_sets_yes (rc : Nat) (st : MergeState)
    (tasks : List Task) (t : Task) (i : Nat) (hmem : t ∈ tasks)
    (hbt : 0 < t.blockingTime)
    (hlk : List.lookup (taskKey t) st.taskMap = some i)
    (hlen : 4 ≤ (st.report.getD i []).length) :
    ((mergeFinal rc st tasks).getD i []).getD 3 "" = "Yes" := by
  obtain ⟨l1, l2, rfl⟩ := List.append_of_mem hmem
  simp only [mergeFinal, List.foldl_append, List.foldl_cons]
  have hlkA : List.lookup (taskKey t)
      ((l1.foldl (mergeStep rc) st).taskMap) = some i :=
    foldl_mergeStep_lookup_mono rc l1 st _ _ hlk
  have hlenA : 4 ≤ (((l1.foldl (mergeStep rc) st).report).getD i []).length :=
    le_trans hlen (foldl_mergeStep_rowEvolve rc l1 st i).1
  have hyesB := mergeStep_sets_yes rc _ t i hlkA hbt hlenA
  have hyesC := rowEvolve_yesAt _ _
    (foldl_mergeStep_rowEvolve rc l2 _ i) hyesB
  exact (rowEvolve_yesAt _ _
    (rowExtend_rowEvolve _ _ (foldl_fillStep_rowExtend _ _ _ i)) hyesC).2

/-- The three header labels appended for the next run, as a function of
the current header. -/
def header2Of (hd : List String) : List String :=
  hd ++ [runLabel (Int.fdiv ((hd.length : ℤ) - 4) 3 + 1) "Blocking Time",
    runLabel (Int.fdiv ((hd.length : ℤ) - 4) 3 + 1) "Total Duration",
    runLabel (Int.fdiv ((hd.length : ℤ) - 4) 3 + 1) "Occurrences"]

/-- `Math.floor((headerRow.length - 4) / 3)`, clamped to ℕ as the JS fill
loops do. -/
def rcOf (hd : List String) : Nat :=
  (Int.fdiv ((hd.length : ℤ) - 4) 3).toNat

/-- The initial merge state of the nonempty-report branch. -/
def initStateOf (hd : List String) (rows : List (List String)) :
    MergeState :=
  { report := header2Of hd :: rows,
    taskMap := buildTaskMap (header2Of hd :: rows), updatedTasks := [] }

theorem updateReport_cons_eq (hd : List String)
    (rows : List (List String)) (tasks : List Task) :
    updateReport (hd :: rows) tasks =
      mergeFinal (rcOf hd) (initStateOf hd rows) tasks := rfl

/-- C3: the 'Has Long Tasks' cell of a pre-existing data row keeps its
value or becomes "Yes" (never anything else); once "Yes" it stays "Yes"
under any later run; and a current-run task with positive blocking time
whose key maps to that row forces the cell to "Yes". -/
theorem updateReport_hasLongTasks (R : List (List String))
    (tasks : List Task) (i : Nat) (hR : R ≠ []) (h1 : 1 ≤ i)
    (hi : i < R.length) (hlen : 4 ≤ (R.getD i []).length) :
    (((updateReport R tasks).getD i []).getD 3 "" =
        (R.getD i []).getD 3 "" ∨
      ((updateReport R tasks).getD i []).getD 3 "" = "Yes") ∧
    ((R.getD i []).getD 3 "" = "Yes" →
      ((updateReport R tasks).getD i []).getD 3 "" = "Yes") ∧
    (∀ t ∈ tasks, 0 < t.blockingTime →
      List.lookup (taskKey t) (buildTaskMap R) = some i →
      ((updateReport R tasks).getD i []).getD 3 "" = "Yes") := by
  rcases R with _ | ⟨hd, rows⟩
  · exact absurd rfl hR
  rw [updateReport_cons_eq]
  obtain ⟨i, rfl⟩ : ∃ i', i = i' + 1 := ⟨i - 1, by omega⟩
  have hR0 : (initStateOf hd rows).report.getD (i + 1) [] =
      (hd :: rows).getD (i + 1) [] := rfl
  have hrow := mergeFinal_rowEvolve (rcOf hd) (initStateOf hd rows)
    tasks (i + 1)
  rw [hR0] at hrow
  refine ⟨?_, ?_, ?_⟩
  · exact hrow.2.2 (by omega)
  · intro hy
    exact (rowEvolve_yesAt _ _ hrow ⟨hlen, hy⟩).2
  · intro t hmem hbt hlk
    exact mergeFinal_sets_yes (rcOf hd) (initStateOf hd rows) tasks t
      (i + 1) hmem hbt hlk hlen

theorem updateReport_hasLongTasks_witness :
    ((updateReport
        [["Task Name", "URL", "Category", "Has Long Tasks"],
         ["a", "u", "c", "Yes"]] []).getD 1 []).getD 3 "" = "Yes" :=
  (updateReport_hasLongTasks
    [["Task Name", "URL", "Category", "Has Long Tasks"],
     ["a", "u", "c", "Yes"]] [] 1 (by simp) (by omega) (by simp)
    (by simp)).2.1 rfl

/-! ### Exact characterization of the merge on well-keyed inputs -/

/-- What the merge does to one pre-existing data row: a matching task
appends its metrics (setting 'Has Long Tasks' on positive blocking time),
an absent key appends the sentinel triple. -/
def rowAfterMerge (tasks : List Task) (r : List String) : List String :=
  match tasks.find? (fun t => taskKey t == rowKeyOf r) with
  | some t =>
    (if 0 < t.blockingTime then r.set 3 "Yes" else r) ++ taskMetrics t
  | none => r ++ ["-1", "-1", "-1"]

/-- During the task loop (before the fill pass) an unmatched row is still
untouched. -/
def rowDuring (tasks : List Task) (r : List String) : List String :=
  match tasks.find? (fun t => taskKey t == rowKeyOf r) with
  | some t =>
    (if 0 < t.blockingTime then r.set 3 "Yes" else r) ++ taskMetrics t
  | none => r

/-- The tasks whose key is not among the existing row keys (these get a
brand-new row). -/
def freshTasks (rowKeys : List String) (tasks : List Task) : List Task :=
  tasks.filter fun t => !(rowKeys.contains (taskKey t))

/-- The row created for a task unseen by the existing report. -/
def freshRowOf (rc : Nat) (t : Task) : List String :=
  ([t.name, t.url, t.category,
    if 0 < t.blockingTime then "Yes" else "No"]
    ++ (List.replicate rc ["-1", "-1", "-1"]).flatten) ++ taskMetrics t

/-- Key-to-index bindings of consecutive rows starting at index `i`. -/
def keyIdx : Nat → List (List String) → List (String × Nat)
  | _, [] => []
  | i, r :: rs => (rowKeyOf r, i) :: keyIdx (i + 1) rs

/-- Key-to-index bindings of consecutive fresh tasks starting at `i`. -/
def taskKeyIdx : Nat → List Task → List (String × Nat)
  | _, [] => []
  | i, t :: ts => (taskKey t, i) :: taskKeyIdx (i + 1) ts

theorem assocSet_append_of_lookup_none (l : List (String × α)) (k : String)
    (v : α) (h : List.lookup k l = none) : assocSet l k v = l ++ [(k, v)] := by
  induction l with
  | nil => rfl
  | cons p rest ih =>
    obtain ⟨k₀, v₀⟩ := p
    simp only [List.lookup] at h
    by_cases h0 : k = k₀
    · rw [beq_iff_eq.mpr h0] at h
      exact Option.noConfusion h
    · rw [beq_eq_false_iff_ne.mpr h0] at h
      simp only [assocSet, beq_iff_eq]
      rw [if_neg fun he => h0 he.symm, List.cons_append, ih h]

theorem lookup_append_some (a b : List (String × α)) (k : String) (v : α)
    (h : List.lookup k a = some v) : List.lookup k (a ++ b) = some v := by
  induction a with
  | nil => exact Option.noConfusion h
  | cons p rest ih =>
    obtain ⟨k₀, v₀⟩ := p
    simp only [List.lookup] at h ⊢
    rcases hbeq : k == k₀ with _ | _
    · rw [hbeq] at h
      exact ih h
    · rw [hbeq] at h
      exact h

theorem lookup_append_none (a b : List (String × α)) (k : String)
    (h : List.lookup k a = none) :
    List.lookup k (a ++ b) = List.lookup k b := by
  induction a with
  | nil => rfl
  | cons p rest ih =>
    obtain ⟨k₀, v₀⟩ := p
    simp only [List.lookup] at h ⊢
    rcases hbeq : k == k₀ with _ | _
    · rw [hbeq] at h
      exact ih h
    · rw [hbeq] at h
      exact Option.noConfusion h

theorem lookup_keyIdx_none (rows : List (List String)) (i : Nat)
    (k : String) (h : k ∉ rows.map rowKeyOf) :
    List.lookup k (keyIdx i rows) = none := by
  induction rows generalizing i with
  | nil => rfl
  | cons r rs ih =>
    simp only [List.map_cons, List.mem_cons, not_or] at h
    simp only [keyIdx, List.lookup]
    rw [beq_eq_false_iff_ne.mpr h.1]
    exact ih (i + 1) h.2

theorem lookup_taskKeyIdx_none (ts : List Task) (i : Nat) (k : String)
    (h : k ∉ ts.map taskKey) : List.lookup k (taskKeyIdx i ts) = none := by
  induction ts generalizing i with
  | nil => rfl
  | cons t ts ih =>
    simp only [List.map_cons, List.mem_cons, not_or] at h
    simp only [taskKeyIdx, List.lookup]
    rw [beq_eq_false_iff_ne.mpr h.1]
    exact ih (i + 1) h.2

theorem keyIdx_append (l1 l2 : List (List String)) (i : Nat) :
    keyIdx i (l1 ++ l2) = keyIdx i l1 ++ keyIdx (i + l1.length) l2 := by
  induction l1 generalizing i with
  | nil => simp [keyIdx]
  | cons r rs ih =>
    simp only [List.cons_append, keyIdx, List.length_cons, List.append_eq]
    rw [ih (i + 1), show i + 1 + rs.length = i + (rs.length + 1) from by omega]

theorem taskKeyIdx_concat (ts : List Task) (t : Task) (i : Nat) :
    taskKeyIdx i (ts ++ [t]) =
      taskKeyIdx i ts ++ [(taskKey t, i + ts.length)] := by
  induction ts generalizing i with
  | nil => simp [taskKeyIdx]
  | cons t' ts ih =>
    simp only [List.cons_append, taskKeyIdx, List.length_cons, List.append_eq]
    rw [ih (i + 1), show i + 1 + ts.length = i + (ts.length + 1) from by omega]

theorem listModify_middle (a : List α) (b : α) (c : List α) (f : α → α) :
    listModify (a ++ b :: c) a.length f = a ++ f b :: c := by
  induction a with
  | nil => rfl
  | cons x a ih => simp [listModify, ih]

theorem listModify_concat (l : List α) (a : α) (f : α → α) :
    listModify (l ++ [a]) l.length f = l ++ [f a] := by
  simpa using listModify_middle l a [] f

theorem zipWith_map_same (f : α → β → γ) (g : α → β) (l : List α) :
    List.zipWith f l (l.map g) = l.map fun a => f a (g a) := by
  induction l with
  | nil => rfl
  | cons a l ih => simp [ih]

theorem find?_none_of_not_mem_keys (ts : List Task) (k : String)
    (h : k ∉ ts.map taskKey) :
    ts.find? (fun t' => taskKey t' == k) = none := by
  rw [List.find?_eq_none]
  intro t' ht' hbeq
  exact h (beq_iff_eq.mp hbeq ▸ List.mem_map_of_mem taskKey ht')

theorem find?_concat_of_ne (ts : List Task) (t : Task) (k : String)
    (h : taskKey t ≠ k) :
    (ts ++ [t]).find? (fun t' => taskKey t' == k) =
      ts.find? (fun t' => taskKey t' == k) := by
  induction ts with
  | nil =>
    simp only [List.nil_append, List.find?]
    rw [beq_eq_false_iff_ne.mpr h]
  | cons t' ts ih =>
    rcases hb : (taskKey t' == k) with _ | _
    · rw [List.cons_append, List.find?_cons_of_neg _ (by simp [hb]),
        List.find?_cons_of_neg _ (by simp [hb]), ih]
    · rw [List.cons_append, List.find?_cons_of_pos _ (by simp [hb]),
        List.find?_cons_of_pos _ (by simp [hb])]

theorem find?_concat_self (ts : List Task) (t : Task) (k : String)
    (hnone : ts.find? (fun t' => taskKey t' == k) = none)
    (h : taskKey t = k) :
    (ts ++ [t]).find? (fun t' => taskKey t' == k) = some t := by
  induction ts with
  | nil =>
    simp only [List.nil_append, List.find?]
    rw [beq_iff_eq.mpr h]
  | cons t' ts ih =>
    rcases hb : (taskKey t' == k) with _ | _
    · rw [List.find?_cons_of_neg _ (by simp [hb])] at hnone
      rw [List.cons_append, List.find?_cons_of_neg _ (by simp [hb]), ih hnone]
    · rw [List.find?_cons_of_pos _ (by simp [hb])] at hnone
      exact Option.noConfusion hnone

theorem find?_some_of_mem_keys (ts : List Task) (k : String)
    (h : k ∈ ts.map taskKey) :
    ∃ t, ts.find? (fun t' => taskKey t' == k) = some t := by
  induction ts with
  | nil => simp at h
  | cons t' ts ih =>
    rcases hb : (taskKey t' == k) with _ | _
    · rw [List.find?_cons_of_neg _ (by simp [hb])]
      refine ih ?_
      simp only [List.map_cons, List.mem_cons] at h
      rcases h with h' | h'
      · exact absurd (beq_iff_eq.mpr h'.symm) (by simp [hb])
      · exact h'
    · exact ⟨t', List.find?_cons_of_pos _ (by simp [hb])⟩

theorem foldl_fillStep_skip (u : List String) (m : List (String × Nat))
    (rep : List (List String)) (h : ∀ p ∈ m, u.contains p.1 = true) :
    m.foldl (fillStep u) rep = rep := by
  induction m generalizing rep with
  | nil => rfl
  | cons p m ih =>
    rw [List.foldl_cons, fillStep, if_pos (h p (List.mem_cons_self _ _)),
      ih _ fun q hq => h q (List.mem_cons_of_mem _ hq)]

/-- The fill pass walks the row bindings in order and appends the sentinel
triple exactly to the rows whose key was not updated. -/
theorem foldl_fillStep_keyIdx (u : List String) (l cur pre suf :
    List (List String)) (hlen : cur.length = l.length) :
    (keyIdx pre.length l).foldl (fillStep u) (pre ++ cur ++ suf) =
      pre ++ (List.zipWith (fun r c =>
        if u.contains (rowKeyOf r) then c else c ++ ["-1", "-1", "-1"])
        l cur) ++ suf := by
  induction l generalizing pre cur with
  | nil =>
    cases cur with
    | nil => simp [keyIdx]
    | cons c cur => simp at hlen
  | cons r l ih =>
    cases cur with
    | nil => simp at hlen
    | cons c cur =>
      simp only [keyIdx, List.foldl_cons, List.zipWith_cons_cons]
      have hshape : pre ++ (c :: cur) ++ suf = pre ++ c :: (cur ++ suf) := by
        simp
      by_cases hc : u.contains (rowKeyOf r) = true
      · rw [fillStep, if_pos hc]
        have := ih cur (pre ++ [c]) (by simpa using hlen)
        simp only [List.length_append, List.length_cons, List.length_nil,
          List.append_assoc, List.singleton_append] at this ⊢
        rw [if_pos hc]
        exact this
      · rw [fillStep, if_neg hc, hshape, listModify_middle]
        have := ih cur (pre ++ [c ++ ["-1", "-1", "-1"]]) (by simpa using hlen)
        simp only [List.length_append, List.length_cons, List.length_nil,
          List.append_assoc, List.singleton_append] at this ⊢
        rw [if_neg hc]
        exact this

theorem mem_keys_of_mem_freshTasks_keys (rk : List String)
    (ts : List Task) (k : String)
    (h : k ∈ (freshTasks rk ts).map taskKey) : k ∈ ts.map taskKey := by
  rcases List.mem_map.mp h with ⟨t', ht', hkey'⟩
  exact hkey' ▸ List.mem_map_of_mem taskKey (List.mem_filter.mp ht').1

theorem mergeStep_shape_fresh (rc : Nat) (H2 : List String)
    (rows : List (List String)) (ts : List Task) (t : Task)
    (hmem : taskKey t ∉ rows.map rowKeyOf)
    (hts : taskKey t ∉ ts.map taskKey) :
    mergeStep rc
      { report := H2 :: (rows.map (rowDuring ts) ++
          (freshTasks (rows.map rowKeyOf) ts).map (freshRowOf rc)),
        taskMap := keyIdx 1 rows ++
          taskKeyIdx (rows.length + 1) (freshTasks (rows.map rowKeyOf) ts),
        updatedTasks := ts.map taskKey } t =
      { report := H2 :: (rows.map (rowDuring (ts ++ [t])) ++
          (freshTasks (rows.map rowKeyOf) (ts ++ [t])).map (freshRowOf rc)),
        taskMap := keyIdx 1 rows ++
          taskKeyIdx (rows.length + 1)
            (freshTasks (rows.map rowKeyOf) (ts ++ [t])),
        updatedTasks := (ts ++ [t]).map taskKey } := by
  have hfr : freshTasks (rows.map rowKeyOf) (ts ++ [t]) =
      freshTasks (rows.map rowKeyOf) ts ++ [t] := by
    have hne : ¬∃ a ∈ rows, rowKeyOf a = taskKey t := by
      rintro ⟨a, ha, hk⟩
      exact hmem (hk ▸ List.mem_map_of_mem rowKeyOf ha)
    simp [freshTasks, List.filter_append, List.filter, hne]
  have hrowsmap : rows.map (rowDuring (ts ++ [t])) =
      rows.map (rowDuring ts) := by
    refine List.map_congr_left fun r hr => ?_
    rw [rowDuring, rowDuring, find?_concat_of_ne]
    exact fun he => hmem (he ▸ List.mem_map_of_mem rowKeyOf hr)
  have hlk : List.lookup (taskKey t)
      (keyIdx 1 rows ++ taskKeyIdx (rows.length + 1)
        (freshTasks (rows.map rowKeyOf) ts)) = none := by
    rw [lookup_append_none _ _ _ (lookup_keyIdx_none _ _ _ hmem)]
    exact lookup_taskKeyIdx_none _ _ _
      fun hk => hts (mem_keys_of_mem_freshTasks_keys _ _ _ hk)
  rw [hfr, hrowsmap]
  simp only [mergeStep, hlk]
  congr 1
  · simp only [List.cons_append, List.append_eq, List.length_cons,
      listModify]
    rw [listModify_concat]
    simp [freshRowOf, List.append_assoc, List.map_append]
  · rw [assocSet_append_of_lookup_none _ _ _ hlk, taskKeyIdx_concat,
      List.append_assoc]
    have hlen : (H2 :: (rows.map (rowDuring ts) ++
        (freshTasks (rows.map rowKeyOf) ts).map (freshRowOf rc))).length =
        rows.length + 1 + (freshTasks (rows.map rowKeyOf) ts).length := by
      simp only [List.length_cons, List.length_append, List.length_map]
      omega
    rw [hlen]
  · simp

theorem mergeStep_shape_existing (rc : Nat) (H2 : List String)
    (l1 : List (List String)) (r0 : List String) (l2 : List (List String))
    (ts : List Task) (t : Task)
    (hkey : rowKeyOf r0 = taskKey t)
    (hl1 : taskKey t ∉ l1.map rowKeyOf)
    (hl2 : taskKey t ∉ l2.map rowKeyOf)
    (hts : taskKey t ∉ ts.map taskKey) :
    mergeStep rc
      { report := H2 :: ((l1 ++ r0 :: l2).map (rowDuring ts) ++
          (freshTasks ((l1 ++ r0 :: l2).map rowKeyOf) ts).map
            (freshRowOf rc)),
        taskMap := keyIdx 1 (l1 ++ r0 :: l2) ++
          taskKeyIdx ((l1 ++ r0 :: l2).length + 1)
            (freshTasks ((l1 ++ r0 :: l2).map rowKeyOf) ts),
        updatedTasks := ts.map taskKey } t =
      { report := H2 :: ((l1 ++ r0 :: l2).map (rowDuring (ts ++ [t])) ++
          (freshTasks ((l1 ++ r0 :: l2).map rowKeyOf) (ts ++ [t])).map
            (freshRowOf rc)),
        taskMap := keyIdx 1 (l1 ++ r0 :: l2) ++
          taskKeyIdx ((l1 ++ r0 :: l2).length + 1)
            (freshTasks ((l1 ++ r0 :: l2).map rowKeyOf) (ts ++ [t])),
        updatedTasks := (ts ++ [t]).map taskKey } := by
  have hmem : taskKey t ∈ (l1 ++ r0 :: l2).map rowKeyOf := by
    rw [← hkey]
    exact List.mem_map_of_mem rowKeyOf (by simp)
  have hfr : freshTasks ((l1 ++ r0 :: l2).map rowKeyOf) (ts ++ [t]) =
      freshTasks ((l1 ++ r0 :: l2).map rowKeyOf) ts := by
    have hd : taskKey t = rowKeyOf r0 := hkey.symm
    simp [freshTasks, List.filter_append, List.filter, hd]
  have hfind0 : ts.find? (fun t' => taskKey t' == rowKeyOf r0) = none := by
    rw [hkey]
    exact find?_none_of_not_mem_keys _ _ hts
  have hrow0 : rowDuring ts r0 = r0 := by
    rw [rowDuring, hfind0]
  have hrow0' : rowDuring (ts ++ [t]) r0 =
      (if 0 < t.blockingTime then r0.set 3 "Yes" else r0) ++
        taskMetrics t := by
    rw [rowDuring, find?_concat_self _ _ _ hfind0 hkey.symm]
  have hl1map : ∀ g : List Task, taskKey t ∉ (ts ++ g).map taskKey →
      True := fun _ _ => trivial
  have hmapl1 : l1.map (rowDuring (ts ++ [t])) = l1.map (rowDuring ts) := by
    refine List.map_congr_left fun r hr => ?_
    rw [rowDuring, rowDuring, find?_concat_of_ne]
    exact fun he => hl1 (he ▸ List.mem_map_of_mem rowKeyOf hr)
  have hmapl2 : l2.map (rowDuring (ts ++ [t])) = l2.map (rowDuring ts) := by
    refine List.map_congr_left fun r hr => ?_
    rw [rowDuring, rowDuring, find?_concat_of_ne]
    exact fun he => hl2 (he ▸ List.mem_map_of_mem rowKeyOf hr)
  have hlk : List.lookup (taskKey t)
      (keyIdx 1 (l1 ++ r0 :: l2) ++
        taskKeyIdx ((l1 ++ r0 :: l2).length + 1)
          (freshTasks ((l1 ++ r0 :: l2).map rowKeyOf) ts)) =
      some (1 + l1.length) := by
    refine lookup_append_some _ _ _ _ ?_
    rw [keyIdx_append]
    refine (lookup_append_none _ _ _ (lookup_keyIdx_none _ _ _ hl1)).trans ?_
    simp only [keyIdx, List.lookup]
    rw [beq_iff_eq.mpr hkey.symm]
  simp only [mergeStep, hlk]
  rw [hfr]
  congr 1
  · have hshape : (l1 ++ r0 :: l2).map (rowDuring ts) ++
        (freshTasks ((l1 ++ r0 :: l2).map rowKeyOf) ts).map
          (freshRowOf rc) =
        l1.map (rowDuring ts) ++ rowDuring ts r0 ::
          (l2.map (rowDuring ts) ++
            (freshTasks ((l1 ++ r0 :: l2).map rowKeyOf) ts).map
              (freshRowOf rc)) := by
      simp [List.map_append, List.append_assoc]
    have hshape' : (l1 ++ r0 :: l2).map (rowDuring (ts ++ [t])) ++
        (freshTasks ((l1 ++ r0 :: l2).map rowKeyOf) ts).map
          (freshRowOf rc) =
        l1.map (rowDuring ts) ++ rowDuring (ts ++ [t]) r0 ::
          (l2.map (rowDuring ts) ++
            (freshTasks ((l1 ++ r0 :: l2).map rowKeyOf) ts).map
              (freshRowOf rc)) := by
      simp [List.map_append, List.append_assoc, hmapl1, hmapl2]
    rw [hshape, hshape', hrow0, hrow0']
    have hidx : 1 + l1.length = (l1.map (rowDuring ts)).length + 1 := by
      simp [Nat.add_comm]
    by_cases hbt : 0 < t.blockingTime
    · rw [if_pos hbt, if_pos hbt, hidx]
      simp only [listModify]
      rw [listModify_middle, listModify_middle]
    · rw [if_neg hbt, if_neg hbt, hidx]
      simp only [listModify]
      rw [listModify_middle]
  · simp

/-- The task loop, on distinct row keys and distinct task keys, updates
each matched row in place, appends one new row per fresh task, and records
exactly the processed keys. -/
theorem foldl_mergeStep_shape (rc : Nat) (H2 : List String)
    (rows : List (List String)) (tasks : List Task)
    (hrows : (rows.map rowKeyOf).Nodup)
    (htasks : (tasks.map taskKey).Nodup) :
    tasks.foldl (mergeStep rc)
      { report := H2 :: rows, taskMap := keyIdx 1 rows,
        updatedTasks := [] } =
      { report := H2 :: (rows.map (rowDuring tasks) ++
          (freshTasks (rows.map rowKeyOf) tasks).map (freshRowOf rc)),
        taskMap := keyIdx 1 rows ++
          taskKeyIdx (rows.length + 1)
            (freshTasks (rows.map rowKeyOf) tasks),
        updatedTasks := tasks.map taskKey } := by
  induction tasks using List.reverseRecOn with
  | nil =>
    have hmapid : rows.map (rowDuring []) = rows :=
      (List.map_congr_left fun r _ => rfl).trans (List.map_id rows)
    simp [freshTasks, taskKeyIdx, hmapid]
  | append_singleton ts t ih =>
    simp only [List.map_append, List.map_cons, List.map_nil] at htasks
    have h1 := List.nodup_append.mp htasks
    have hts_nd : (ts.map taskKey).Nodup := h1.1
    have hnotin : taskKey t ∉ ts.map taskKey :=
      fun hmem => h1.2.2 hmem (List.mem_singleton_self _)
    rw [List.foldl_append, List.foldl_cons, List.foldl_nil, ih hts_nd]
    by_cases hm : taskKey t ∈ rows.map rowKeyOf
    · rcases List.mem_map.mp hm with ⟨r0, hr0, hr0key⟩
      obtain ⟨l1, l2, rfl⟩ := List.append_of_mem hr0
      have hsplit : ((l1.map rowKeyOf) ++
          rowKeyOf r0 :: (l2.map rowKeyOf)).Nodup := by
        simpa [List.map_append] using hrows
      have hsp := List.nodup_append.mp hsplit
      have hl1 : taskKey t ∉ l1.map rowKeyOf := by
        rw [← hr0key]
        exact fun hmem => hsp.2.2 hmem (List.mem_cons_self _ _)
      have hl2 : taskKey t ∉ l2.map rowKeyOf := by
        rw [← hr0key]
        exact (List.nodup_cons.mp hsp.2.1).1
      exact mergeStep_shape_existing rc H2 l1 r0 l2 ts t hr0key hl1 hl2
        hnotin
    · exact mergeStep_shape_fresh rc H2 rows ts t hm hnotin

theorem buildTaskMapAux_eq_keyIdx (rows : List (List String)) (i : Nat)
    (m : List (String × Nat))
    (hfresh : ∀ r ∈ rows, List.lookup (rowKeyOf r) m = none)
    (hnd : (rows.map rowKeyOf).Nodup) :
    buildTaskMapAux i rows m = m ++ keyIdx i rows := by
  induction rows generalizing i m with
  | nil => simp [buildTaskMapAux, keyIdx]
  | cons r rs ih =>
    simp only [List.map_cons, List.nodup_cons] at hnd
    simp only [buildTaskMapAux, keyIdx]
    rw [assocSet_append_of_lookup_none _ _ _
        (hfresh r (List.mem_cons_self _ _)),
      ih (i + 1) _ ?hfresh hnd.2]
    · simp [List.append_assoc]
    case hfresh =>
      intro r' hr'
      rw [lookup_append_none _ _ _ (hfresh r' (List.mem_cons_of_mem _ hr'))]
      simp only [List.lookup]
      have hne : rowKeyOf r' ≠ rowKeyOf r := by
        intro he
        exact hnd.1 (he ▸ List.mem_map_of_mem rowKeyOf hr')
      rw [beq_eq_false_iff_ne.mpr hne]

theorem mem_taskKeyIdx_keys (ts : List Task) (i : Nat) (p : String × Nat)
    (hp : p ∈ taskKeyIdx i ts) : p.1 ∈ ts.map taskKey := by
  induction ts generalizing i with
  | nil => simp [taskKeyIdx] at hp
  | cons t ts ih =>
    rcases List.mem_cons.mp hp with h | h
    · simp [h]
    · exact List.mem_cons_of_mem _ (ih (i + 1) h)

theorem fillChoice_rowDuring (tasks : List Task) (r : List String) :
    (if (tasks.map taskKey).contains (rowKeyOf r) then rowDuring tasks r
     else rowDuring tasks r ++ ["-1", "-1", "-1"]) =
      rowAfterMerge tasks r := by
  by_cases hc : rowKeyOf r ∈ tasks.map taskKey
  · rw [if_pos (List.elem_iff.mpr hc)]
    obtain ⟨t0, ht0⟩ := find?_some_of_mem_keys tasks (rowKeyOf r) hc
    rw [rowDuring, rowAfterMerge, ht0]
  · rw [if_neg fun hcon => hc (List.elem_iff.mp hcon)]
    rw [rowDuring, rowAfterMerge, find?_none_of_not_mem_keys tasks _ hc]

/-- The exact output of a merge into a nonempty report whose data rows
have pairwise-distinct keys, for a task list with pairwise-distinct keys:
the extended header, each old row transformed by `rowAfterMerge`, then one
fresh row per unseen task. -/
theorem updateReport_master (hd : List String)
    (rows : List (List String)) (tasks : List Task)
    (hrows : (rows.map rowKeyOf).Nodup)
    (htasks : (tasks.map taskKey).Nodup) :
    updateReport (hd :: rows) tasks =
      header2Of hd :: (rows.map (rowAfterMerge tasks) ++
        (freshTasks (rows.map rowKeyOf) tasks).map
          (freshRowOf (rcOf hd))) := by
  rw [updateReport_cons_eq]
  have hmap0 : buildTaskMap (header2Of hd :: rows) = keyIdx 1 rows := by
    rw [buildTaskMap]
    exact (buildTaskMapAux_eq_keyIdx rows 1 [] (fun r hr => rfl)
      hrows).trans (by simp)
  rw [mergeFinal]
  simp only [initStateOf, hmap0]
  rw [foldl_mergeStep_shape (rcOf hd) (header2Of hd) rows tasks hrows htasks]
  simp only []
  rw [List.foldl_append]
  have hfill1 := foldl_fillStep_keyIdx (tasks.map taskKey) rows
    (rows.map (rowDuring tasks)) [header2Of hd]
    ((freshTasks (rows.map rowKeyOf) tasks).map (freshRowOf (rcOf hd)))
    (by simp)
  simp only [List.length_cons, List.length_nil, List.singleton_append,
    Nat.zero_add] at hfill1
  rw [show header2Of hd :: (rows.map (rowDuring tasks) ++
      (freshTasks (rows.map rowKeyOf) tasks).map (freshRowOf (rcOf hd))) =
      header2Of hd :: rows.map (rowDuring tasks) ++
        (freshTasks (rows.map rowKeyOf) tasks).map (freshRowOf (rcOf hd))
    from by simp, hfill1]
  rw [foldl_fillStep_skip _ _ _ fun p hp =>
    List.elem_iff.mpr (mem_keys_of_mem_freshTasks_keys _ _ _
      (mem_taskKeyIdx_keys _ _ _ hp))]
  rw [zipWith_map_same]
  have : (rows.map fun r =>
      if (tasks.map taskKey).contains (rowKeyOf r) then rowDuring tasks r
      else rowDuring tasks r ++ ["-1", "-1", "-1"]) =
      rows.map (rowAfterMerge tasks) :=
    List.map_congr_left fun r _ => fillChoice_rowDuring tasks r
  rw [this]
  simp

/-! ### C2: cell counts and sentinel fill of a follow-up merge -/

theorem length_rowAfterMerge (tasks : List Task) (r : List String) :
    (rowAfterMerge tasks r).length = r.length + 3 := by
  rw [rowAfterMerge]
  rcases tasks.find? (fun t' => taskKey t' == rowKeyOf r) with _ | t
  · simp
  · simp only [List.length_append]
    split <;> simp [taskMetrics, List.length_set]

theorem length_freshRowOf (rc : Nat) (t : Task) :
    (freshRowOf rc t).length = 4 + 3 * rc + 3 := by
  simp only [freshRowOf, List.length_append, List.length_cons,
    List.length_nil, List.length_flatten, List.map_replicate,
    List.sum_replicate, taskMetrics]
  simp [Nat.mul_comm]

theorem length_header2Of (hd : List String) :
    (header2Of hd).length = hd.length + 3 := by
  simp [header2Of]

theorem rcOf_eq (hd : List String) (k : Nat) (hk : hd.length = 4 + 3 * k) :
    rcOf hd = k := by
  rw [rcOf, hk]
  have hcast : ((4 + 3 * k : ℕ) : ℤ) - 4 = 3 * (k : ℤ) := by
    push_cast
    ring
  rw [hcast, Int.mul_fdiv_cancel_left _ (by norm_num)]
  simp

/-- A task whose key collides with the sample row used in the C1/C2
counterexamples. -/
def dupTask : Task :=
  { name := "a", url := "u", blockingTime := 0, totalDuration := 0,
    occurrences := 0, category := "c" }

/-- C2 counterexample: for a task list containing the same key twice, the
matched row receives two metric triples and ends up longer than the
header, so the claim's "every task list" quantification fails. -/
theorem updateReport_cellcount_counterexample :
    ((([["Task Name", "URL", "Category", "Has Long Tasks"],
        ["a", "u", "c", "No"]] : List (List String)).getD 1 []).length =
      (([["Task Name", "URL", "Category", "Has Long Tasks"],
        ["a", "u", "c", "No"]] : List (List String)).getD 0 []).length) ∧
    ((updateReport
        [["Task Name", "URL", "Category", "Has Long Tasks"],
         ["a", "u", "c", "No"]] [dupTask, dupTask]).getD 0 []).length = 7 ∧
    ((updateReport
        [["Task Name", "URL", "Category", "Has Long Tasks"],
         ["a", "u", "c", "No"]] [dupTask, dupTask]).getD 1 []).length = 10 := by
  with_unfolding_all decide

/-- C2 amended: for an existing report whose header has `4 + 3k` columns,
whose data rows match the header's cell count and have pairwise-distinct
(name, url) keys, and a task list with pairwise-distinct keys, the merge
grows the header by exactly 3 columns, leaves every row's cell count equal
to the new header length, and appends `-1,-1,-1` to every pre-existing
data row whose key is absent from the task list. -/
theorem updateReport_second_run (hd : List String)
    (rows : List (List String)) (tasks : List Task) (k : Nat)
    (hk : hd.length = 4 + 3 * k)
    (hlen : ∀ r ∈ rows, r.length = hd.length)
    (hrows : (rows.map rowKeyOf).Nodup)
    (htasks : (tasks.map taskKey).Nodup) :
    ((updateReport (hd :: rows) tasks).getD 0 []).length = hd.length + 3 ∧
    (∀ row ∈ updateReport (hd :: rows) tasks,
      row.length = hd.length + 3) ∧
    (∀ i, i < rows.length →
      (∀ t ∈ tasks, taskKey t ≠ rowKeyOf (rows.getD i [])) →
      (updateReport (hd :: rows) tasks).getD (i + 1) [] =
        rows.getD i [] ++ ["-1", "-1", "-1"]) := by
  rw [updateReport_master hd rows tasks hrows htasks]
  refine ⟨by simp [length_header2Of], ?_, ?_⟩
  · intro row hrow
    rcases List.mem_cons.mp hrow with h | h
    · rw [h, length_header2Of]
    · rcases List.mem_append.mp h with h' | h'
      · rcases List.mem_map.mp h' with ⟨r, hr, rfl⟩
        rw [length_rowAfterMerge, hlen r hr]
      · rcases List.mem_map.mp h' with ⟨t, ht, rfl⟩
        rw [length_freshRowOf, rcOf_eq hd k hk, hk]
  · intro i hi habsent
    rw [List.getD_cons_succ,
      List.getD_append _ _ _ _ (by simpa using hi),
      List.getD_eq_getElem _ _ (by simpa using hi),
      List.getElem_map,
      List.getD_eq_getElem _ _ hi]
    rw [rowAfterMerge, List.find?_eq_none.mpr ?habs]
    case habs =>
      intro t ht hbeq
      exact habsent t ht
        ((beq_iff_eq.mp hbeq).trans
          (congrArg rowKeyOf (List.getD_eq_getElem rows [] hi).symm))

theorem updateReport_second_run_witness :
    ((updateReport (reportHeader1 :: [firstRunRow dupTask]) []).getD 0
      []).length = reportHeader1.length + 3 :=
  (updateReport_second_run reportHeader1 [firstRunRow dupTask] [] 1
    (by decide) (by with_unfolding_all decide)
    (by with_unfolding_all decide) (by decide)).1

/-! ### C1: row-identity uniqueness across merges -/

theorem rowKeyOf_firstRunRow (t : Task) :
    rowKeyOf (firstRunRow t) = taskKey t := rfl

theorem rowKeyOf_freshRowOf (rc : Nat) (t : Task) :
    rowKeyOf (freshRowOf rc t) = taskKey t := rfl

theorem rowKeyOf_rowAfterMerge (tasks : List Task) (r : List String)
    (hr : 2 ≤ r.length) :
    rowKeyOf (rowAfterMerge tasks r) = rowKeyOf r := by
  rcases hf : tasks.find? (fun t' => taskKey t' == rowKeyOf r) with _ | t
  · simp only [rowAfterMerge, hf]
    simp only [rowKeyOf]
    rw [List.getD_append _ _ _ _ (by omega),
      List.getD_append _ _ _ _ (by omega)]
  · simp only [rowAfterMerge, hf]
    by_cases hbt : 0 < t.blockingTime
    · rw [if_pos hbt]
      simp only [rowKeyOf]
      rw [List.getD_append _ _ _ _ (by rw [List.length_set]; omega),
        List.getD_append _ _ _ _ (by rw [List.length_set]; omega),
        getD_set_ne _ _ _ _ _ (by omega), getD_set_ne _ _ _ _ _ (by omega)]
    · rw [if_neg hbt]
      simp only [rowKeyOf]
      rw [List.getD_append _ _ _ _ (by omega),
        List.getD_append _ _ _ _ (by omega)]

/-- The shape invariant every report reachable from the empty report
satisfies: empty, or a `4 + 3k`-column header with data rows of the same
cell count and pairwise-distinct keys. -/
def ReportWF (R : List (List String)) : Prop :=
  R = [] ∨ ∃ hd rows k, R = hd :: rows ∧ hd.length = 4 + 3 * k ∧
    (∀ r ∈ rows, r.length = hd.length) ∧ (rows.map rowKeyOf).Nodup

theorem updateReport_WF (R : List (List String)) (tasks : List Task)
    (hWF : ReportWF R) (htasks : (tasks.map taskKey).Nodup) :
    ReportWF (updateReport R tasks) := by
  rcases hWF with rfl | ⟨hd, rows, k, rfl, hk, hlen, hrows⟩
  · refine Or.inr ⟨reportHeader1, tasks.map firstRunRow, 1, rfl, rfl,
      ?_, ?_⟩
    · intro r hr
      rcases List.mem_map.mp hr with ⟨t, _, rfl⟩
      rfl
    · rw [List.map_map]
      exact (List.map_congr_left fun t _ => rowKeyOf_firstRunRow t) ▸
        htasks
  · rw [updateReport_master hd rows tasks hrows htasks]
    refine Or.inr ⟨header2Of hd, _, k + 1, rfl, ?_, ?_, ?_⟩
    · rw [length_header2Of, hk]
      ring
    · intro r hr
      rw [length_header2Of]
      rcases List.mem_append.mp hr with h' | h'
      · rcases List.mem_map.mp h' with ⟨r0, hr0, rfl⟩
        rw [length_rowAfterMerge, hlen r0 hr0]
      · rcases List.mem_map.mp h' with ⟨t, _, rfl⟩
        rw [length_freshRowOf, rcOf_eq hd k hk, hk]
    · rw [List.map_append, List.map_map, List.map_map]
      have h1 : rows.map (rowKeyOf ∘ rowAfterMerge tasks) =
          rows.map rowKeyOf :=
        List.map_congr_left fun r hr =>
          rowKeyOf_rowAfterMerge tasks r (by rw [hlen r hr, hk]; omega)
      have h2 : (freshTasks (rows.map rowKeyOf) tasks).map
          (rowKeyOf ∘ freshRowOf (rcOf hd)) =
          (freshTasks (rows.map rowKeyOf) tasks).map taskKey :=
        List.map_congr_left fun t _ => rowKeyOf_freshRowOf _ t
      rw [h1, h2]
      refine List.nodup_append.mpr ⟨hrows, ?_, ?_⟩
      · exact ((List.filter_sublist tasks).map taskKey).nodup htasks
      · intro a ha hcon
        rcases List.mem_map.mp hcon with ⟨t, ht, rfl⟩
        have hf := (List.mem_filter.mp ht).2
        rw [Bool.not_eq_eq_eq_not, Bool.not_true] at hf
        have hc2 : ((rows.map rowKeyOf).contains (taskKey t)) = true :=
          List.elem_iff.mpr ha
        rw [hf] at hc2
        exact Bool.noConfusion hc2

theorem foldl_updateReport_WF (runs : List (List Task))
    (R : List (List String)) (hWF : ReportWF R)
    (h : ∀ ts ∈ runs, (ts.map taskKey).Nodup) :
    ReportWF (runs.foldl updateReport R) := by
  induction runs generalizing R with
  | nil => exact hWF
  | cons ts runs ih =>
    exact ih _ (updateReport_WF R ts hWF (h ts (List.mem_cons_self _ _)))
      fun ts' hts' => h ts' (List.mem_cons_of_mem _ hts')

/-- C1 counterexample: applying `updateReport` to the empty report with a
task list that repeats a (name, url) pair produces two data rows with the
same pair. -/
theorem updateReport_duplicate_rows_counterexample :
    (updateReport [] [dupTask, dupTask]).length = 3 ∧
    ((updateReport [] [dupTask, dupTask]).getD 1 []).getD 0 "" =
      ((updateReport [] [dupTask, dupTask]).getD 2 []).getD 0 "" ∧
    ((updateReport [] [dupTask, dupTask]).getD 1 []).getD 1 "" =
      ((updateReport [] [dupTask, dupTask]).getD 2 []).getD 1 "" := by
  with_unfolding_all decide

/-- C1 amended: starting from the empty report, any sequence of merges
whose task lists each have pairwise-distinct (name, url) keys — as the
task aggregator always produces — yields a report in which no two data
rows share the same (Task Name, URL) pair. -/
theorem mergeRuns_row_identity_unique (runs : List (List Task))
    (h : ∀ ts ∈ runs, (ts.map taskKey).Nodup) :
    ((runs.foldl updateReport []).drop 1).Pairwise fun r s =>
      (r.getD 0 "", r.getD 1 "") ≠ (s.getD 0 "", s.getD 1 "") := by
  rcases foldl_updateReport_WF runs [] (Or.inl rfl) h with hempty |
    ⟨hd, rows, k, heq, hk, hlen, hrows⟩
  · rw [hempty]
    exact List.Pairwise.nil
  · rw [heq]
    simp only [List.drop_one, List.tail_cons]
    have hpw : rows.Pairwise fun r s => rowKeyOf r ≠ rowKeyOf s := by
      rw [List.Nodup, List.pairwise_map] at hrows
      exact hrows
    refine hpw.imp_of_mem ?_
    intro r s hr hs hkey hpair
    have hrl : 2 ≤ r.length := by rw [hlen r hr, hk]; omega
    have hsl : 2 ≤ s.length := by rw [hlen s hs, hk]; omega
    refine hkey ?_
    have h0 : r.getD 0 "" = s.getD 0 "" := (Prod.mk.injEq .. ▸ hpair).1
    have h1 : r.getD 1 "" = s.getD 1 "" := (Prod.mk.injEq .. ▸ hpair).2
    rw [rowKeyOf, rowKeyOf,
      List.getD_eq_getElem _ _ (by omega : (0 : Nat) < r.length),
      List.getD_eq_getElem _ _ (by omega : (1 : Nat) < r.length),
      List.getD_eq_getElem _ _ (by omega : (0 : Nat) < s.length),
      List.getD_eq_getElem _ _ (by omega : (1 : Nat) < s.length)]
    rw [List.getD_eq_getElem _ _ (by omega : (0 : Nat) < r.length),
      List.getD_eq_getElem _ _ (by omega : (0 : Nat) < s.length)] at h0
    rw [List.getD_eq_getElem _ _ (by omega : (1 : Nat) < r.length),
      List.getD_eq_getElem _ _ (by omega : (1 : Nat) < s.length)] at h1
    rw [h0, h1]

theorem mergeRuns_row_identity_unique_witness :
    (([[dupTask]].foldl updateReport []).drop 1).Pairwise fun r s =>
      (r.getD 0 "", r.getD 1 "") ≠ (s.getD 0 "", s.getD 1 "") :=
  mergeRuns_row_identity_unique [[dupTask]]
    (by with_unfolding_all decide)

/-! ### C7: the first-run report -/

/-- A decimal string with exactly two fraction digits: everything before
the (unique trailing) dot is dot-free and the dot is followed by exactly
two digit characters. -/
def twoFracDigits (s : String) : Prop :=
  ∃ a b, s.data = a ++ '.' :: b ∧ '.' ∉ a ∧ b.length = 2 ∧
    ∀ c ∈ b, c.isDigit = true

theorem digitChar_isDigit : ∀ d < 10, (Nat.digitChar d).isDigit = true := by
  decide

theorem natCharsAux_digits (fuel : Nat) : ∀ (n : Nat) (acc : List Char),
    (∀ c ∈ acc, c.isDigit = true) →
    ∀ c ∈ natCharsAux fuel n acc, c.isDigit = true := by
  induction fuel with
  | zero => exact fun n acc hacc => hacc
  | succ fuel ih =>
    intro n acc hacc
    simp only [natCharsAux]
    have hcons : ∀ c ∈ Nat.digitChar (n % 10) :: acc, c.isDigit = true := by
      intro c hc
      rcases List.mem_cons.mp hc with h | h
      · rw [h]
        exact digitChar_isDigit _ (Nat.mod_lt _ (by omega))
      · exact hacc c h
    split
    · exact hcons
    · exact ih _ _ hcons

theorem natChars_digits (n : Nat) : ∀ c ∈ natChars n, c.isDigit = true :=
  natCharsAux_digits (n + 1) n [] (by simp)

theorem twoFracDigits_mk (sgn ip : List Char) (c1 c2 : Char)
    (hsgn : '.' ∉ sgn) (hip : ∀ c ∈ ip, c.isDigit = true)
    (h1 : c1.isDigit = true) (h2 : c2.isDigit = true) :
    twoFracDigits (String.mk (sgn ++ ip ++ '.' :: [c1, c2])) := by
  refine ⟨sgn ++ ip, [c1, c2], by simp, ?_, rfl, ?_⟩
  · intro hmem
    rcases List.mem_append.mp hmem with h | h
    · exact hsgn h
    · exact absurd (hip '.' h) (by decide)
  · intro c hc
    rcases List.mem_cons.mp hc with h | h
    · rw [h]
      exact h1
    · rw [List.mem_singleton.mp h]
      exact h2

/-- Every value `toFixed(2)` renders has exactly two fraction digits. -/
theorem toFixed2_twoFracDigits (q : ℚ) : twoFracDigits (toFixed2 q) := by
  simp only [toFixed2]
  apply twoFracDigits_mk
  · split <;> decide
  · exact natChars_digits _
  · exact digitChar_isDigit _ (by omega)
  · exact digitChar_isDigit _ (by omega)

/-- C7: merging N tasks into the empty report yields the 4+3-column
header and N+1 rows; each data row flags 'Has Long Tasks' exactly for
positive blocking time, renders blocking time and total duration with
exactly two fraction digits, and renders occurrences as a plain digit
string. -/
theorem updateReport_firstRun (tasks : List Task) :
    (updateReport [] tasks).length = tasks.length + 1 ∧
    (updateReport [] tasks).getD 0 [] = reportHeader1 ∧
    reportHeader1.length = 4 + 3 ∧
    (updateReport [] tasks).drop 1 = tasks.map firstRunRow ∧
    (∀ t ∈ tasks,
      ((firstRunRow t).getD 3 "" = "Yes" ↔ 0 < t.blockingTime) ∧
      (firstRunRow t).getD 4 "" = toFixed2 t.blockingTime ∧
      twoFracDigits ((firstRunRow t).getD 4 "") ∧
      (firstRunRow t).getD 5 "" = toFixed2 t.totalDuration ∧
      twoFracDigits ((firstRunRow t).getD 5 "") ∧
      (firstRunRow t).getD 6 "" = natToString t.occurrences ∧
      (∀ c ∈ ((firstRunRow t).getD 6 "").data, c.isDigit = true)) := by
  refine ⟨by simp [updateReport], rfl, rfl, rfl, ?_⟩
  intro t _
  refine ⟨?_, rfl, toFixed2_twoFracDigits _, rfl,
    toFixed2_twoFracDigits _, rfl, natChars_digits _⟩
  show (if 0 < t.blockingTime then "Yes" else "No") = "Yes" ↔
    0 < t.blockingTime
  by_cases hbt : 0 < t.blockingTime
  · rw [if_pos hbt]
    exact ⟨fun _ => hbt, fun _ => rfl⟩
  · rw [if_neg hbt]
    exact ⟨fun h => absurd h (by decide), fun h => absurd h hbt⟩

theorem updateReport_firstRun_witness :
    twoFracDigits ((firstRunRow dupTask).getD 4 "") :=
  ((updateReport_firstRun [dupTask]).2.2.2.2 dupTask
    (by with_unfolding_all decide)).2.2.1

end AnalyzeTrace
